import Mathlib

/-!
Shallow embedding of `src/types/fds_namelist.py` (BlenderFDS): the FDS
namelist data model, the classification of namelist entries, the 80-column
serializer `to_fds`, and the scanning parser `from_fds`, together with
theorems settling the frozen claims about them.

Python mutable state is made explicit: `to_fds` mutates `self.msgs`
(`self.msgs.extend(p.msgs)` during classification) and, recursively, the
`msgs` of nested namelists, so the embedded `to_fds` returns the produced
text together with the updated namelist value.  Python exceptions are
`Except String`.  Python truthiness on strings/lists is emptiness.
-/

set_option maxHeartbeats 1000000

namespace BlenderFDS

/-- Modelled from the spec: `fds_param.py` is not under `src/`; the namelist
code uses an `FDSParam` only through its `fds_label`, its `msgs` list and
the list of formatted value strings returned by `_get_formatted_values()`
(spec §4.1: zero tokens for a valueless flag, otherwise the formatted
values that are comma-joined by the serializer).  We therefore embed an
`FDSParam` as exactly that interface: a label (the empty string standing
for Python `None`, both falsy), the formatted value strings, and the
message list. -/
structure FDSParam where
  fds_label : String
  vs : List String
  msgs : List String
deriving DecidableEq, Repr

mutual

/-- `FDSNamelist.__init__`: a group label (`""` for Python `None`, both
falsy), the entry list `fds_params`, and the comment message list. -/
inductive FDSNamelist : Type where
  | mk : String → List FDSEntry → List String → FDSNamelist

/-- One element of `FDSNamelist.fds_params`.  In Python this is an untyped
slot; `_classify_fds_param` pattern-matches it against `None`, `FDSParam`,
`FDSNamelist`, `FDSMany` (a list of further entries plus `msgs`) and
`FDSMulti` (a list of sub-groups of params plus `msgs`); every other value
hits the `case _` arm, which we represent by `otherE`. -/
inductive FDSEntry : Type where
  | noneE : FDSEntry
  | paramE : FDSParam → FDSEntry
  | nmlE : FDSNamelist → FDSEntry
  | manyE : List FDSEntry → List String → FDSEntry
  | multiE : List (List FDSParam) → List String → FDSEntry
  | otherE : String → FDSEntry

end

def FDSNamelist.fds_label : FDSNamelist → String
  | .mk l _ _ => l

def FDSNamelist.fds_params : FDSNamelist → List FDSEntry
  | .mk _ ps _ => ps

def FDSNamelist.msgs : FDSNamelist → List String
  | .mk _ _ m => m

/-- `FDSNamelist.MAXLEN = 80`: max number of columns of formatted output. -/
def MAXLEN : Nat := 80

/-- The local classification state of one `to_fds` call:
`self._invariant_ps` (`inv`), the results of serializing the namelists of
`self._additional_ns` (`addRes`; in Python the nested `to_fds` calls run
after classification, but they do not read or write the parent state, so
their results can be recorded during the traversal and sequenced
afterwards in the same order, reproducing the Python evaluation),
`self._multi_ps` (`multi`; `some []` is a captured empty `FDSMulti`,
falsy in Python), the messages appended to `self.msgs` by
`self.msgs.extend(...)` (`addMsgs`), and the entry list as it stands after
the call, nested namelists replaced by their updated values (`updated`). -/
structure CState where
  inv : List FDSParam
  addRes : List (Except String (String × FDSNamelist))
  multi : Option (List (List FDSParam))
  addMsgs : List String
  updated : List FDSEntry

def initCState : CState := ⟨[], [], none, [], []⟩

/-- One step of the inner value-splitting loop of `to_fds`:
`for v in vs: if len(line) + len(v) + 1 <= self.MAXLEN: line += v + ","`
`else: lines.append(line); line = "        " + v + ","`. -/
def splitStep (acc : List String × String) (v : String) : List String × String :=
  if acc.2.length + v.length + 1 ≤ MAXLEN then (acc.1, acc.2 ++ v ++ ",")
  else (acc.1 ++ [acc.2], "        " ++ v ++ ",")

/-- The state of the record-emission loop of `to_fds`: the flushed `lines`,
the open `line`, and the `newline` flag. -/
structure EmitState where
  lines : List String
  line : String
  newline : Bool
deriving DecidableEq, Repr

/-- The body of `for p in nl:` in `to_fds`: greedy packing of one
parameter onto the current line, or a new 6-space line, with the
comma-splitting loop for oversized value lists.  `line[:-1]` is
`String.mk line.data.dropLast` (drop the final character). -/
def stepParam (st : EmitState) (p : FDSParam) : EmitState :=
  if p.fds_label = "" then st
  else
    let label := p.fds_label
    let vs := p.vs
    if vs = [] then
      if st.newline = false ∧ st.line.length + 1 + label.length ≤ MAXLEN then
        { st with line := st.line ++ " " ++ label, newline := false }
      else
        { st with lines := st.lines ++ [st.line], line := "      " ++ label }
    else
      let v := String.intercalate "," vs
      if st.newline = false ∧ st.line.length + 1 + label.length + 1 + v.length ≤ MAXLEN then
        { st with line := st.line ++ " " ++ label ++ "=" ++ v, newline := false }
      else
        let lines1 := st.lines ++ [st.line]
        let line1 := "      " ++ label ++ "="
        if line1.length + v.length ≤ MAXLEN then
          { lines := lines1, line := line1 ++ v, newline := st.newline }
        else
          let r := vs.foldl splitStep (lines1, line1)
          { lines := r.1, line := String.mk r.2.data.dropLast, newline := true }

/-- The record-emission loop of `to_fds` for one synthesized record `nl`:
start from `line = f"&{label}"`, fold the parameters, then
`line += " /"; lines.append(line)`. -/
def emitRecord (label : String) (nl : List FDSParam) : List String :=
  let st := nl.foldl stepParam ⟨[], "&" ++ label, false⟩
  st.lines ++ [st.line ++ " /"]

/-- The record synthesis of `to_fds`: if a non-empty multi was captured,
drop from `invariant_ps` every param whose label occurs among the labels of
the first sub-group, and build one record per sub-group (invariant params
first, then the sub-group's params); otherwise a single record of the
invariant params. -/
def buildNls (st : CState) : List (List FDSParam) :=
  match st.multi with
  | some (g0 :: gs) =>
      let mlabels := (g0 :: gs).head!.map (fun p => p.fds_label)
      let inv := st.inv.filter (fun p => !(mlabels.contains p.fds_label))
      (g0 :: gs).map (fun g => inv ++ g)
  | _ => [st.inv]

mutual

/-- `FDSNamelist._classify_fds_param` folded over the entry list: `None`
is skipped; an `FDSParam` goes to `invariant_ps`; an `FDSNamelist` goes to
`additional_ns` (its serialization result recorded); an `FDSMany` is
classified recursively in place; an `FDSMulti` raises if a non-empty multi
was already captured, else is captured; anything else raises.  Each arm
extends the parent's `msgs` with the entry's `msgs`. -/
def classifyEntries (es : List FDSEntry) (st : CState) : Except String CState :=
  match es with
  | [] => .ok st
  | .noneE :: rest => classifyEntries rest { st with updated := st.updated ++ [.noneE] }
  | .paramE p :: rest =>
      classifyEntries rest
        { st with inv := st.inv ++ [p], addMsgs := st.addMsgs ++ p.msgs,
                  updated := st.updated ++ [.paramE p] }
  | .nmlE n :: rest =>
      let res := toFds n
      let n' := match res with | .ok (_, nn) => nn | .error _ => n
      classifyEntries rest
        { st with addRes := st.addRes ++ [res], addMsgs := st.addMsgs ++ n.msgs,
                  updated := st.updated ++ [.nmlE n'] }
  | .manyE inner m :: rest =>
      match classifyEntries inner { st with updated := [] } with
      | .error e => .error e
      | .ok st1 =>
          classifyEntries rest
            { st1 with addMsgs := st1.addMsgs ++ m,
                       updated := st.updated ++ [.manyE st1.updated m] }
  | .multiE ps m :: rest =>
      match st.multi with
      | some (_ :: _) => .error "One only FDSMulti allowed"
      | _ =>
          classifyEntries rest
            { st with multi := some ps, addMsgs := st.addMsgs ++ m,
                      updated := st.updated ++ [.multiE ps m] }
  | .otherE s :: _ => .error ("Unrecognized type of " ++ s)

/-- `FDSNamelist.to_fds`: classify the entries, emit one `! msg` line per
non-empty message of the (extended) message list, then the blobs of the
nested namelists, then — when the group label is truthy — the record lines
of each synthesized record.  Returns the joined text together with the
namelist as the call leaves it (extended `msgs`, nested namelists updated
in place). -/
def toFds (t : FDSNamelist) : Except String (String × FDSNamelist) :=
  match t with
  | .mk label ps msgs =>
    match classifyEntries ps initCState with
    | .error e => .error e
    | .ok st =>
      match seqResults st.addRes with
      | .error e => .error e
      | .ok blobs =>
        let msgs' := msgs ++ st.addMsgs
        let msgLines := (msgs'.filter (fun m => m ≠ "")).map (fun m => "! " ++ m)
        let recLines : List String :=
          if label ≠ "" then ((buildNls st).map (emitRecord label)).flatten else []
        .ok (String.intercalate "\n" (msgLines ++ blobs.map Prod.fst ++ recLines),
             .mk label st.updated msgs')

/-- Sequencing of the recorded nested serialization results, in order: the
first raised exception propagates, as with Python's
`lines.extend(n.to_fds(context) for n in self._additional_ns)`. -/
def seqResults : List (Except String (String × FDSNamelist)) →
    Except String (List (String × FDSNamelist))
  | [] => .ok []
  | r :: rs =>
    match r with
    | .error e => .error e
    | .ok x =>
      match seqResults rs with
      | .error e => .error e
      | .ok xs => .ok (x :: xs)

end

mutual

/-- `msgs.isEmpty` for every entry, recursively: no entry the classification
touches carries messages (`paramE`/`nmlE`/`manyE`/`multiE` all have their
`msgs` appended to the parent's `msgs` by `_classify_fds_param`). -/
def cleanEntry : FDSEntry → Bool
  | .noneE => true
  | .paramE p => p.msgs.isEmpty
  | .nmlE (.mk _ ps m) => m.isEmpty && cleanEntries ps
  | .manyE es m => m.isEmpty && cleanEntries es
  | .multiE _ m => m.isEmpty
  | .otherE _ => true

/-- `cleanEntry` on every element. -/
def cleanEntries : List FDSEntry → Bool
  | [] => true
  | e :: es => cleanEntry e && cleanEntries es

end

/-
The parser side: `FDSNamelist.from_fds` and `_RE_SCAN_PARAMS`.

The regex is translated into an explicit character scanner with the
backtracking semantics of the Python `re` engine worked out for this
pattern (see the doc comments of each piece).  `re.finditer` becomes a
left-to-right loop that tries a match at each position and continues after
the end of each match.
-/

/-- A character of the label charset `[A-Z0-9_\(\):,]` under
`re.IGNORECASE` (so lowercase letters match as well). -/
def labelChar (c : Char) : Bool :=
  c.isAlpha || c.isDigit || c = '_' || c = '(' || c = ')' || c = ':' || c = ','

/-- A character of the separator charset `[,\s\t]`. -/
def sepChar (c : Char) : Bool :=
  c = ',' || c.isWhitespace

/-- Does `[,\s\t]*=` match here?  The separator run is skipped greedily;
since `=` is not a separator, backtracking inside the run cannot produce a
different outcome, so the test is: all separators skipped, then `=`. -/
def eqFollows (cs : List Char) : Bool :=
  (cs.dropWhile sepChar).head? = some '='

/-- The lazy label `[A-Z][A-Z0-9_\(\):,]*?` followed by `[,\s\t]*=`:
the shortest label length `ℓ ≥ 1` (all chars in the label charset, first
alphabetic) such that `[,\s\t]*=` matches right after it.  `rem` is the
input after the current prefix of length `ℓ`. -/
def labelLenAux (rem : List Char) (ℓ : Nat) : Option Nat :=
  if eqFollows rem then some ℓ
  else
    match rem with
    | c :: r => if labelChar c then labelLenAux r (ℓ + 1) else none
    | [] => none

/-- A label-`=` attempt at the head of `cs`: `some ℓ` when the lazy label
of length `ℓ` (then separators, then `=`) matches here. -/
def findLabelLen (cs : List Char) : Option Nat :=
  match cs with
  | c :: r => if c.isAlpha then labelLenAux r 1 else none
  | [] => none

/-- The look-ahead `(?:[,\s\t]+label[,\s\t]*=)|$` that ends the lazy value:
end of input, or at least one separator followed by a label-`=` structure.
As the label must start with a letter (not a separator), only the maximal
separator run can be followed by a label, so no backtracking case split is
needed. -/
def lookAhead (cs : List Char) : Bool :=
  match cs with
  | [] => true
  | _ =>
    let k := (cs.takeWhile sepChar).length
    decide (1 ≤ k) && (findLabelLen (cs.drop k)).isSome

/-- The lazy value `(?:'.*?'|".*?"|.+?)*?` up to the look-ahead: starting
from the value position, stop as soon as the look-ahead matches; otherwise
consume one atom — a complete single- or double-quoted span (to its
nearest closing quote; an unterminated quote falls back to a single
character, as the quoted alternatives fail and `.+?` takes over) or a
single character — and repeat.  Because `$` always satisfies the
look-ahead at the end of input, the first (preferred) backtracking branch
of the engine always succeeds, which this loop reproduces.  Returns the
value span and the rest of the input.  `fuel` bounds the recursion; the
scanner passes the input length, and every step consumes at least one
character. -/
def scanValue (fuel : Nat) (cs : List Char) : List Char × List Char :=
  match fuel with
  | 0 => ([], cs)
  | fuel + 1 =>
    if lookAhead cs then ([], cs)
    else
      match cs with
      | [] => ([], [])
      | c :: rest =>
        if c = '\'' ∨ c = '"' then
          match rest.findIdx? (fun d => d = c) with
          | some i =>
              let atom := c :: rest.take (i + 1)
              let r := scanValue fuel (rest.drop (i + 1))
              (atom ++ r.1, r.2)
          | none =>
              let r := scanValue fuel rest
              (c :: r.1, r.2)
        else
          let r := scanValue fuel rest
          (c :: r.1, r.2)

/-- One match attempt of `_RE_SCAN_PARAMS` at the head of `cs`: the lazy
label, separators, `=`, separators (greedy — they are not part of the
value group), then the lazy value.  Returns label, value and the rest of
the input after the match. -/
def matchAt (cs : List Char) : Option (String × String × List Char) :=
  match findLabelLen cs with
  | none => none
  | some ℓ =>
    let lab := String.mk (cs.take ℓ)
    match (cs.drop ℓ).dropWhile sepChar with
    | '=' :: r2 =>
      let vstart := r2.dropWhile sepChar
      let r := scanValue vstart.length vstart
      some (lab, String.mk r.1, r.2)
    | _ => none

/-- `re.finditer(_RE_SCAN_PARAMS, f90)`: scan left to right, trying a
match at every position; after a match, continue at its end.  `fuel`
bounds the loop; the entry point passes the input length, and every
iteration consumes at least one character. -/
def scanLoop (fuel : Nat) (cs : List Char) : List (String × String) :=
  match fuel with
  | 0 => []
  | fuel + 1 =>
    match cs with
    | [] => []
    | _ :: tail =>
      match matchAt cs with
      | some (lab, v, rest) => (lab, v) :: scanLoop fuel rest
      | none => scanLoop fuel tail

def scanParams (s : String) : List (String × String) :=
  scanLoop s.data.length s.data

/-- Python `str.strip()`: drop whitespace from both ends. -/
def pyStrip (s : String) : String :=
  String.mk (((s.data.dropWhile Char.isWhitespace).reverse.dropWhile
    Char.isWhitespace).reverse)

/-- Python `str.splitlines()` restricted to the line breaks `\r\n`, `\n`,
`\r`: split at each break, no empty trailing line, `[]` on empty input. -/
def splitLinesAux : List Char → List Char → List (List Char)
  | [], acc => if acc.isEmpty then [] else [acc.reverse]
  | [c], acc =>
    if c = '\n' ∨ c = '\x0d' then acc.reverse :: splitLinesAux [] []
    else splitLinesAux [] (c :: acc)
  | c :: r0 :: r2, acc =>
    if c = '\n' then acc.reverse :: splitLinesAux (r0 :: r2) []
    else if c = '\x0d' then
      if r0 = '\n' then acc.reverse :: splitLinesAux r2 []
      else acc.reverse :: splitLinesAux (r0 :: r2) []
    else splitLinesAux (r0 :: r2) (c :: acc)

def splitLines (s : String) : List String :=
  (splitLinesAux s.data []).map String.mk

/-- `f90 = " ".join(f90.strip().splitlines())` at the top of `from_fds`. -/
def normJoin (f90 : String) : String :=
  String.intercalate " " (splitLines (pyStrip f90))

/-- Modelled from the spec: `FDSParam.from_fds` lives in `fds_param.py`,
which is not under `src/`.  Per spec §4.1 it splits the raw value on
top-level commas (commas inside quoted substrings do not split) and fails
when a quoted literal is unterminated.  The split fragments are kept as
the param's value strings; scalar coercion is not needed by any claim.
The fuel argument (the input length suffices, as every step consumes at
least one character) only bounds the recursion. -/
def splitTopCommas (fuel : Nat) (cs : List Char) (acc : List Char) :
    Except String (List String) :=
  match fuel with
  | 0 => .error "value too long"
  | fuel + 1 =>
    match cs with
    | [] => .ok [String.mk acc.reverse]
    | c :: r =>
      if c = ',' then
        match splitTopCommas fuel r [] with
        | .error e => .error e
        | .ok fs => .ok (String.mk acc.reverse :: fs)
      else if c = '\'' ∨ c = '"' then
        match r.findIdx? (fun d => d = c) with
        | some i =>
            splitTopCommas fuel (r.drop (i + 1)) ((r.take (i + 1)).reverse ++ c :: acc)
        | none => .error "unterminated quoted literal"
      else splitTopCommas fuel r (c :: acc)

/-- Modelled from the spec: `FDSParam(fds_label=label)` then
`fds_param.from_fds(f90=f90_value)` — build a param with the given label,
the fragments of the raw value, and no messages. -/
def paramFromFds (lab v : String) : Except String FDSParam :=
  match splitTopCommas (v.data.length + 1) v.data [] with
  | .error e => .error e
  | .ok fs => .ok ⟨lab, fs, []⟩

/-- The loop body of `FDSNamelist.from_fds`: one `FDSParam` per match, in
encountered order; the first `BFException` raised by a param's value
parser propagates. -/
def parseParams : List (String × String) → Except String (List FDSParam)
  | [] => .ok []
  | lv :: rest =>
    match paramFromFds lv.1 lv.2 with
    | .error e => .error e
    | .ok p =>
      match parseParams rest with
      | .error e => .error e
      | .ok ps => .ok (p :: ps)

/-- The parameter list produced by `FDSNamelist.from_fds`: one `FDSParam`
per match of the scan, in encountered order, the raw value text of each
match delegated to the param parser. -/
def fromFdsList (f90 : String) : Except String (List FDSParam) :=
  parseParams (scanParams (normJoin f90))

/-- `FDSNamelist.from_fds`: parse the body and append the new params to
`self.fds_params`.  (If a param's value parser raises mid-loop, the
Python object keeps the params appended so far; as no claim inspects that
state, the error is returned without the partial namelist.) -/
def FDSNamelist.fromFds (t : FDSNamelist) (f90 : String) :
    Except String FDSNamelist :=
  match fromFdsList f90 with
  | .error e => .error e
  | .ok ps => .ok (.mk t.fds_label (t.fds_params ++ ps.map .paramE) t.msgs)

/-! ### Length bookkeeping for the serializer -/

theorem len_indent6 : ("      " : String).length = 6 := rfl

theorem len_indent8 : ("        " : String).length = 8 := rfl

theorem len_mk (l : List Char) : (String.mk l).length = l.length := rfl

theorem len_comma : ("," : String).length = 1 := rfl

/-- Invariant of the value-splitting loop: if every already flushed line
and the open line fit in `MAXLEN` columns and every remaining value fits
on a fresh 8-space line (`v.length ≤ 71`), this stays true. -/
theorem splitStep_fold_bound (vs : List String) :
    ∀ lines line, (∀ l ∈ lines, l.length ≤ MAXLEN) → line.length ≤ MAXLEN →
    (∀ v ∈ vs, v.length ≤ 71) →
    (∀ l ∈ (vs.foldl splitStep (lines, line)).1, l.length ≤ MAXLEN) ∧
      (vs.foldl splitStep (lines, line)).2.length ≤ MAXLEN := by
  induction vs with
  | nil => intro lines line h1 h2 _; exact ⟨h1, h2⟩
  | cons v vs ih =>
    intro lines line h1 h2 h3
    have h3tail : ∀ w ∈ vs, w.length ≤ 71 :=
      fun w hw => h3 w (List.mem_cons_of_mem _ hw)
    have hv : v.length ≤ 71 := h3 v (by simp)
    have hlen : (line ++ v ++ ",").length = line.length + v.length + 1 := by
      simp [String.length_append, len_comma]
    have hlen8 : (("        " ++ v ++ ",") : String).length = 9 + v.length := by
      simp [String.length_append, len_indent8, len_comma]; omega
    simp only [List.foldl_cons]
    by_cases hfit : line.length + v.length + 1 ≤ MAXLEN
    · rw [show splitStep (lines, line) v = (lines, line ++ v ++ ",") from by
        simp [splitStep, hfit]]
      exact ih _ _ h1 (by rw [hlen]; exact hfit) h3tail
    · rw [show splitStep (lines, line) v = (lines ++ [line], "        " ++ v ++ ",") from by
        simp [splitStep, hfit]]
      refine ih _ _ ?_ ?_ h3tail
      · intro l hl
        rcases List.mem_append.mp hl with h | h
        · exact h1 l h
        · simp at h; subst h; exact h2
      · rw [hlen8]; simp only [MAXLEN]; omega

/-- Invariant of the greedy packing loop: lines stay within `MAXLEN`
columns provided every label fits after the 6-space indent plus `=`
(length ≤ 73) and every single value fits after the 8-space indent plus a
comma (length ≤ 71). -/
theorem stepParam_bound (st : EmitState) (p : FDSParam)
    (h1 : ∀ l ∈ st.lines, l.length ≤ MAXLEN) (h2 : st.line.length ≤ MAXLEN)
    (hlab : p.fds_label.length ≤ 73) (hvs : ∀ v ∈ p.vs, v.length ≤ 71) :
    (∀ l ∈ (stepParam st p).lines, l.length ≤ MAXLEN) ∧
      (stepParam st p).line.length ≤ MAXLEN := by
  have happ : ∀ ls : List String, (∀ l ∈ ls, l.length ≤ MAXLEN) →
      ∀ l ∈ ls ++ [st.line], l.length ≤ MAXLEN := by
    intro ls hls l hl
    rcases List.mem_append.mp hl with h | h
    · exact hls l h
    · simp at h; subst h; exact h2
  unfold stepParam
  split
  · exact ⟨h1, h2⟩
  dsimp only
  split
  · split
    · rename_i hfit
      constructor
      · exact h1
      · simp only [String.length_append]
        have h1' : (" " : String).length = 1 := rfl
        omega
    · refine ⟨happ _ h1, ?_⟩
      simp only [String.length_append, len_indent6, MAXLEN]
      omega
  · split
    · rename_i hfit
      constructor
      · exact h1
      · simp only [String.length_append]
        have h1' : (" " : String).length = 1 := rfl
        have h2' : ("=" : String).length = 1 := rfl
        omega
    · split
      · rename_i hfit2
        refine ⟨happ _ h1, ?_⟩
        simp only [String.length_append] at hfit2 ⊢
        omega
      · rename_i hfit2
        have hsplit := splitStep_fold_bound p.vs (st.lines ++ [st.line])
          ("      " ++ p.fds_label ++ "=") (happ _ h1)
          (by simp only [String.length_append, len_indent6, MAXLEN]
              have h2' : ("=" : String).length = 1 := rfl
              omega)
          hvs
        refine ⟨hsplit.1, ?_⟩
        have := hsplit.2
        simp only [len_mk]
        calc (List.foldl splitStep (st.lines ++ [st.line], "      " ++ p.fds_label ++ "=")
                p.vs).2.data.dropLast.length
            ≤ (List.foldl splitStep (st.lines ++ [st.line], "      " ++ p.fds_label ++ "=")
                p.vs).2.data.length := by
              rw [List.length_dropLast]; omega
          _ ≤ MAXLEN := this

/-- The whole packing fold keeps every line within `MAXLEN`. -/
theorem foldParams_bound (nl : List FDSParam) :
    ∀ st : EmitState, (∀ l ∈ st.lines, l.length ≤ MAXLEN) →
    st.line.length ≤ MAXLEN →
    (∀ p ∈ nl, p.fds_label.length ≤ 73 ∧ ∀ v ∈ p.vs, v.length ≤ 71) →
    (∀ l ∈ (nl.foldl stepParam st).lines, l.length ≤ MAXLEN) ∧
      (nl.foldl stepParam st).line.length ≤ MAXLEN := by
  induction nl with
  | nil => intro st h1 h2 _; exact ⟨h1, h2⟩
  | cons p nl ih =>
    intro st h1 h2 h3
    have hp := h3 p (by simp)
    have hstep := stepParam_bound st p h1 h2 hp.1 hp.2
    simp only [List.foldl_cons]
    exact ih _ hstep.1 hstep.2 (fun q hq => h3 q (List.mem_cons_of_mem _ hq))


/-! ### C2: column budget -/

/-- C2 (amended): every line of an emitted record is at most 82 columns —
80 plus the final `" /"` — provided the group label is at most 79
characters, every parameter label at most 73 and every formatted value at
most 71.  (The original 80-column claim fails: see
`c2_column_budget_counterexample`.) -/
theorem c2_record_line_bound (label : String) (nl : List FDSParam)
    (hg : label.length ≤ 79)
    (h : ∀ p ∈ nl, p.fds_label.length ≤ 73 ∧ ∀ v ∈ p.vs, v.length ≤ 71) :
    ∀ l ∈ emitRecord label nl, l.length ≤ 82 := by
  have hinit : (("&" ++ label : String)).length ≤ MAXLEN := by
    simp only [String.length_append, MAXLEN]
    have h1 : ("&" : String).length = 1 := rfl
    omega
  have hb := foldParams_bound nl ⟨[], "&" ++ label, false⟩ (by simp) hinit h
  intro l hl
  unfold emitRecord at hl
  rcases List.mem_append.mp hl with hmem | hmem
  · have := hb.1 l hmem
    simp only [MAXLEN] at this
    omega
  · simp at hmem
    subst hmem
    have := hb.2
    simp only [MAXLEN] at this
    simp only [String.length_append]
    have h2 : (" /" : String).length = 2 := rfl
    omega

/-- C2 is refuted as stated: this namelist serializes to a single line of
82 characters (the packing check admits a parameter making the line
exactly 80 columns, and `line += " /"` then exceeds the budget without a
further check). -/
theorem c2_column_budget_counterexample :
    (toFds (.mk "X" [.paramE ⟨"A", ["VVVVVVVVVVVVVVVVVVVVVVVVVVVVVVVVVVVVVVVVVVVVVVVVVVVVVVVVVVVVVVVVVVVVVVVVVVV"], []⟩] [])).map Prod.fst =
      .ok "&X A=VVVVVVVVVVVVVVVVVVVVVVVVVVVVVVVVVVVVVVVVVVVVVVVVVVVVVVVVVVVVVVVVVVVVVVVVVVV /" ∧
    Char.ofNat 10 ∉ ("&X A=VVVVVVVVVVVVVVVVVVVVVVVVVVVVVVVVVVVVVVVVVVVVVVVVVVVVVVVVVVVVVVVVVVVVVVVVVVV /" : String).data ∧
    80 < ("&X A=VVVVVVVVVVVVVVVVVVVVVVVVVVVVVVVVVVVVVVVVVVVVVVVVVVVVVVVVVVVVVVVVVVVVVVVVVVV /" : String).length := by
  refine ⟨by rfl, by decide, by decide⟩

/-! ### Shape of the value-splitting loop (for C7 and C8) -/

theorem str_ext {s t : String} (h : s.data = t.data) : s = t := by
  cases s; cases t; simp only at h; rw [h]

theorem data_comma : ("," : String).data = [','] := rfl

theorem str_cat_comma_ne (v ext : String) : v ++ "," ++ ext ≠ "" := by
  intro hcon
  have h := congrArg String.data hcon
  simp [String.data_append, data_comma] at h

theorem str_comma_ne (v : String) : v ++ "," ≠ "" := by
  intro hcon
  have h := congrArg String.data hcon
  simp [String.data_append, data_comma] at h

/-- Structure of the lines produced by the value-splitting loop: the
incoming lines are kept as a prefix; every new line either extends the
incoming open line (only the first new one can) or starts with the 8-space
continuation indent; the final open line likewise; and when no line was
flushed but at least one value was processed, the open line strictly
extends the incoming one. -/
theorem splitFold_shape (vs : List String) :
    ∀ lines0 line0,
    ∃ mid, (vs.foldl splitStep (lines0, line0)).1 = lines0 ++ mid ∧
      (∀ l ∈ mid, (∃ ext, l = line0 ++ ext) ∨ (∃ w, l = "        " ++ w)) ∧
      (mid ≠ [] → ∃ ext, mid.head? = some (line0 ++ ext)) ∧
      ((∃ ext, (vs.foldl splitStep (lines0, line0)).2 = line0 ++ ext) ∨
        (∃ w, (vs.foldl splitStep (lines0, line0)).2 = "        " ++ w)) ∧
      (mid = [] → vs ≠ [] →
        ∃ ext, ext ≠ "" ∧ (vs.foldl splitStep (lines0, line0)).2 = line0 ++ ext) := by
  induction vs with
  | nil =>
    intro lines0 line0
    refine ⟨[], by simp, by simp, by simp, .inl ⟨"", ?_⟩, by simp⟩
    apply str_ext; simp [String.data_append]
  | cons v vs ih =>
    intro lines0 line0
    by_cases hfit : line0.length + v.length + 1 ≤ MAXLEN
    · have hstep : splitStep (lines0, line0) v = (lines0, line0 ++ v ++ ",") := by
        simp [splitStep, hfit]
      simp only [List.foldl_cons, hstep]
      obtain ⟨mid, h1, h2, h3, h4, h5⟩ := ih lines0 (line0 ++ v ++ ",")
      refine ⟨mid, h1, ?_, ?_, ?_, ?_⟩
      · intro l hl
        rcases h2 l hl with ⟨ext, he⟩ | hw
        · exact .inl ⟨v ++ "," ++ ext, by apply str_ext; simp [he, String.data_append]⟩
        · exact .inr hw
      · intro hne
        obtain ⟨ext, he⟩ := h3 hne
        refine ⟨v ++ "," ++ ext, ?_⟩
        rw [he]
        congr 1
        apply str_ext; simp [String.data_append]
      · rcases h4 with ⟨ext, he⟩ | hw
        · exact .inl ⟨v ++ "," ++ ext, by apply str_ext; simp [he, String.data_append]⟩
        · exact .inr hw
      · intro hmid _
        rcases Decidable.em (vs = []) with hv | hv
        · subst hv
          refine ⟨v ++ ",", str_comma_ne v, ?_⟩
          simp only [List.foldl_nil]
          apply str_ext; simp [String.data_append]
        · obtain ⟨ext, hne, he⟩ := h5 hmid hv
          refine ⟨v ++ "," ++ ext, str_cat_comma_ne v ext, ?_⟩
          apply str_ext; simp [he, String.data_append]
    · have hstep : splitStep (lines0, line0) v = (lines0 ++ [line0], "        " ++ v ++ ",") := by
        simp [splitStep, hfit]
      simp only [List.foldl_cons, hstep]
      obtain ⟨mid, h1, h2, h3, h4, h5⟩ := ih (lines0 ++ [line0]) ("        " ++ v ++ ",")
      refine ⟨line0 :: mid, ?_, ?_, ?_, ?_, by simp⟩
      · rw [h1]; simp
      · intro l hl
        rcases List.mem_cons.mp hl with h | h
        · exact .inl ⟨"", by subst h; apply str_ext; simp [String.data_append]⟩
        · rcases h2 l h with ⟨ext, he⟩ | hw
          · exact .inr ⟨v ++ "," ++ ext, by apply str_ext; simp [he, String.data_append]⟩
          · exact .inr hw
      · intro _
        refine ⟨"", ?_⟩
        simp only [List.head?]
        congr 1
        apply str_ext; simp [String.data_append]
      · rcases h4 with ⟨ext, he⟩ | hw
        · exact .inr ⟨v ++ "," ++ ext, by apply str_ext; simp [he, String.data_append]⟩
        · exact .inr hw

/-- When at least one value is processed, the open line returned by the
value-splitting loop ends with a comma. -/
theorem splitFold_ends_comma (vs : List String) (hvs : vs ≠ []) :
    ∀ acc : List String × String, ∃ w, (vs.foldl splitStep acc).2 = w ++ "," := by
  induction vs with
  | nil => exact absurd rfl hvs
  | cons v vs ih =>
    intro acc
    rcases Decidable.em (vs = []) with hv | hv
    · subst hv
      simp only [List.foldl_cons, List.foldl_nil]
      unfold splitStep
      split
      · exact ⟨acc.2 ++ v, rfl⟩
      · exact ⟨"        " ++ v, rfl⟩
    · simp only [List.foldl_cons]
      exact ih hv _

/-- Value intactness is preserved by the rest of the loop: if `v` already
occurs whole in a flushed line, or in the open line with at least one
character after it, that stays true. -/
theorem splitFold_keeps_value (u : String) (vs : List String) :
    ∀ acc : List String × String,
    ((∃ l ∈ acc.1, ∃ a b, l.data = a ++ u.data ++ b) ∨
      (∃ a b, b ≠ [] ∧ acc.2.data = a ++ u.data ++ b)) →
    ((∃ l ∈ (vs.foldl splitStep acc).1, ∃ a b, l.data = a ++ u.data ++ b) ∨
      (∃ a b, b ≠ [] ∧ (vs.foldl splitStep acc).2.data = a ++ u.data ++ b)) := by
  induction vs with
  | nil => intro acc h; exact h
  | cons v vs ih =>
    intro acc h
    simp only [List.foldl_cons]
    apply ih
    unfold splitStep
    split
    · rcases h with ⟨l, hl, a, b, he⟩ | ⟨a, b, hb, he⟩
      · exact .inl ⟨l, hl, a, b, he⟩
      · refine .inr ⟨a, b ++ (v ++ ",").data, ?_, ?_⟩
        · simp [hb]
        · simp only [String.data_append, he]; simp
    · rcases h with ⟨l, hl, a, b, he⟩ | ⟨a, b, hb, he⟩
      · exact .inl ⟨l, by simp [hl], a, b, he⟩
      · exact .inl ⟨acc.2, by simp, a, b, he⟩

/-- Every processed value occurs whole — no split inside a value — in a
flushed line or in the open line, there with at least one character after
it (its trailing comma), so that dropping the final character of the open
line cannot cut into a value. -/
theorem splitFold_value_intact (vs : List String) :
    ∀ acc : List String × String, ∀ u ∈ vs,
    (∃ l ∈ (vs.foldl splitStep acc).1, ∃ a b, l.data = a ++ u.data ++ b) ∨
      (∃ a b, b ≠ [] ∧ (vs.foldl splitStep acc).2.data = a ++ u.data ++ b) := by
  induction vs with
  | nil => intro acc u hu; simp at hu
  | cons v vs ih =>
    intro acc u hu
    rcases List.mem_cons.mp hu with h | h
    · subst h
      simp only [List.foldl_cons]
      apply splitFold_keeps_value
      unfold splitStep
      split
      · refine .inr ⟨acc.2.data, [','], by simp, ?_⟩
        simp [String.data_append]
      · refine .inr ⟨("        " : String).data, [','], by simp, ?_⟩
        simp [String.data_append]
    · simp only [List.foldl_cons]
      exact ih _ u h

/-! ### C7, C8: greedy packing and oversized value split -/

/-- The full token of a parameter as the spec describes it: `LABEL` for a
valueless flag, `LABEL=v1,v2,...` for a valued parameter. -/
def paramToken (p : FDSParam) : String :=
  if p.vs = [] then p.fds_label
  else p.fds_label ++ "=" ++ String.intercalate "," p.vs

theorem str_data_eq_nil {s : String} (h : s.data = []) : s = "" :=
  str_ext (by simp [h])

theorem lines_ne_snoc (ls : List String) (x : String) : ls ++ [x] ≠ ls := by
  intro h
  have := congrArg List.length h
  simp at this

theorem mk_data (s : String) : String.mk s.data = s := by
  cases s; rfl

theorem data_mk (l : List Char) : (String.mk l).data = l := rfl

/-- C7 (amended): the parameter's full token is appended to the current
line exactly when the `newline` flag is still unset — no earlier
parameter's value list was split in this record — and
`current_length + 1 + token_length ≤ 80`; otherwise the current line is
flushed and a new line starting `"      " ++ label` is opened.  (The
original claim, without the `newline` condition, fails: see
`c7_greedy_packing_counterexample`.) -/
theorem c7_greedy_packing (st : EmitState) (p : FDSParam) (hlab : p.fds_label ≠ "") :
    (((stepParam st p).lines = st.lines ∧
        (stepParam st p).line = st.line ++ " " ++ paramToken p) ↔
      (st.newline = false ∧ st.line.length + 1 + (paramToken p).length ≤ MAXLEN)) ∧
    (¬ (st.newline = false ∧ st.line.length + 1 + (paramToken p).length ≤ MAXLEN) →
      ∃ ext rest, (stepParam st p).lines ++ [(stepParam st p).line] =
        st.lines ++ [st.line] ++ (("      " ++ p.fds_label ++ ext) :: rest)) := by
  rcases Decidable.em (p.vs = []) with hvs | hvs
  · -- valueless flag: token is the bare label
    have htok : paramToken p = p.fds_label := by simp [paramToken, hvs]
    by_cases hcond : st.newline = false ∧ st.line.length + 1 + p.fds_label.length ≤ MAXLEN
    · have hstep : stepParam st p =
          { st with line := st.line ++ " " ++ p.fds_label, newline := false } := by
        unfold stepParam
        simp [hlab, hvs, hcond]
      constructor
      · rw [htok]
        constructor
        · intro _; simpa [String.length_append] using hcond
        · intro _; rw [hstep]; exact ⟨rfl, rfl⟩
      · intro hneg
        exact absurd (by simpa [htok, String.length_append] using hcond) hneg
    · have hstep : stepParam st p =
          { st with lines := st.lines ++ [st.line], line := "      " ++ p.fds_label } := by
        unfold stepParam
        simp [hlab, hvs, hcond]
      constructor
      · rw [htok]
        constructor
        · intro hl
          rw [hstep] at hl
          exact absurd hl.1 (lines_ne_snoc st.lines st.line)
        · intro hc
          exact absurd (by simpa [String.length_append] using hc) hcond
      · intro _
        refine ⟨"", [], ?_⟩
        rw [hstep]
        simp
  · -- valued parameter
    have htok : paramToken p = p.fds_label ++ "=" ++ String.intercalate "," p.vs := by
      simp [paramToken, hvs]
    have htoklen : (paramToken p).length =
        p.fds_label.length + 1 + (String.intercalate "," p.vs).length := by
      rw [htok]
      simp only [String.length_append]
      have h1 : ("=" : String).length = 1 := rfl
      omega
    by_cases hcond : st.newline = false ∧
        st.line.length + 1 + p.fds_label.length + 1 +
          (String.intercalate "," p.vs).length ≤ MAXLEN
    · have hstep : stepParam st p =
          { st with line := st.line ++ " " ++ p.fds_label ++ "=" ++
              String.intercalate "," p.vs, newline := false } := by
        unfold stepParam
        simp [hlab, hvs, hcond]
      constructor
      · constructor
        · intro _
          refine ⟨hcond.1, ?_⟩
          rw [htoklen]; omega
        · intro _
          rw [hstep]
          refine ⟨rfl, ?_⟩
          rw [htok]
          apply str_ext; simp [String.data_append]
      · intro hneg
        refine absurd ⟨hcond.1, ?_⟩ hneg
        rw [htoklen]; omega
    · have hnofit2 : ¬ (st.newline = false ∧
          st.line.length + 1 + (paramToken p).length ≤ MAXLEN) := by
        rw [htoklen]
        intro h
        exact hcond ⟨h.1, by omega⟩
      refine ⟨?_, ?_⟩
      · constructor
        · intro hl
          exfalso
          revert hl
          unfold stepParam
          simp only [hlab, hvs, if_false, if_neg hcond]
          split
          · intro hl
            exact absurd hl.1 (lines_ne_snoc st.lines st.line)
          · intro hl
            obtain ⟨mid, h1, -, -, -, -⟩ :=
              splitFold_shape p.vs (st.lines ++ [st.line])
                ("      " ++ p.fds_label ++ "=")
            have := hl.1
            simp only at this
            rw [h1] at this
            have hlen := congrArg List.length this
            simp at hlen
        · intro hc
          exact absurd hc hnofit2
      · intro _
        unfold stepParam
        simp only [hlab, hvs, if_false, if_neg hcond]
        split
        · refine ⟨"=" ++ String.intercalate "," p.vs, [], ?_⟩
          simp
          apply str_ext; simp [String.data_append]
        · obtain ⟨mid, h1, h2, h3, h4, h5⟩ :=
            splitFold_shape p.vs (st.lines ++ [st.line])
              ("      " ++ p.fds_label ++ "=")
          rcases Decidable.em (mid = []) with hmid | hmid
          · obtain ⟨ext0, hne, he⟩ := h5 hmid hvs
            have hnd : ext0.data ≠ [] := fun hh => hne (str_data_eq_nil hh)
            refine ⟨"=" ++ String.mk ext0.data.dropLast, [], ?_⟩
            have helt : String.mk (p.vs.foldl splitStep
                (st.lines ++ [st.line], "      " ++ p.fds_label ++ "=")).2.data.dropLast =
                "      " ++ p.fds_label ++ ("=" ++ String.mk ext0.data.dropLast) := by
              apply str_ext
              simp only [data_mk, he, String.data_append]
              rw [List.dropLast_append_of_ne_nil _ hnd]
              simp [String.data_append]
            simp [h1, hmid, helt, List.append_assoc]
          · obtain ⟨ext0, he⟩ := h3 hmid
            rcases mid with _ | ⟨m0, mrest⟩
            · exact absurd rfl hmid
            · simp only [List.head?] at he
              have hm0 : m0 = "      " ++ p.fds_label ++ "=" ++ ext0 := by
                injection he
              refine ⟨"=" ++ ext0,
                mrest ++ [String.mk (p.vs.foldl splitStep
                  (st.lines ++ [st.line], "      " ++ p.fds_label ++ "=")).2.data.dropLast], ?_⟩
              have hassoc : "      " ++ p.fds_label ++ "=" ++ ext0 =
                  "      " ++ p.fds_label ++ ("=" ++ ext0) := by
                apply str_ext; simp [String.data_append]
              simp only [h1, hm0, hassoc]
              simp [List.append_assoc]

/-- C8 (amended): for a parameter that is sent to a new line (the greedy
check failed or the `newline` flag was set) and whose joined value cannot
fit even alone on a fresh 6-space line, the serializer takes the splitting
branch: the current line is flushed, a `"      LABEL="` line is started,
the comma-separated values are appended one at a time with flushes to
8-space-indented continuation lines on overflow, the trailing comma of the
last fragment is removed, and no value is ever split across lines.  (The
original claim, quantified only over the token size, fails: see
`c8_oversized_split_counterexample`.) -/
theorem c8_oversized_value_split (st : EmitState) (p : FDSParam)
    (hlab : p.fds_label ≠ "") (hvs : p.vs ≠ [])
    (hnofit : ¬ (st.newline = false ∧
      st.line.length + 1 + p.fds_label.length + 1 +
        (String.intercalate "," p.vs).length ≤ MAXLEN))
    (hbig : ¬ (("      " ++ p.fds_label ++ "=").length +
      (String.intercalate "," p.vs).length ≤ MAXLEN)) :
    (stepParam st p =
      ⟨(p.vs.foldl splitStep (st.lines ++ [st.line], "      " ++ p.fds_label ++ "=")).1,
       String.mk (p.vs.foldl splitStep
         (st.lines ++ [st.line], "      " ++ p.fds_label ++ "=")).2.data.dropLast,
       true⟩) ∧
    (∃ mid, (stepParam st p).lines = (st.lines ++ [st.line]) ++ mid ∧
      (∀ l ∈ mid, (∃ ext, l = "      " ++ p.fds_label ++ "=" ++ ext) ∨
        (∃ w, l = "        " ++ w)) ∧
      (mid ≠ [] → ∃ ext, mid.head? = some ("      " ++ p.fds_label ++ "=" ++ ext))) ∧
    (∃ w, (p.vs.foldl splitStep
        (st.lines ++ [st.line], "      " ++ p.fds_label ++ "=")).2 = w ++ "," ∧
      (stepParam st p).line = w) ∧
    (∀ u ∈ p.vs, (∃ l ∈ (stepParam st p).lines, ∃ a b, l.data = a ++ u.data ++ b) ∨
      (∃ a b, (stepParam st p).line.data = a ++ u.data ++ b)) := by
  have hstep : stepParam st p =
      ⟨(p.vs.foldl splitStep (st.lines ++ [st.line], "      " ++ p.fds_label ++ "=")).1,
       String.mk (p.vs.foldl splitStep
         (st.lines ++ [st.line], "      " ++ p.fds_label ++ "=")).2.data.dropLast,
       true⟩ := by
    have hbig2 : ¬ (("      " : String).length + p.fds_label.length +
        ("=" : String).length + (String.intercalate "," p.vs).length ≤ MAXLEN) := by
      simpa [String.length_append] using hbig
    unfold stepParam
    simp [hlab, hvs, hnofit, hbig2]
  refine ⟨hstep, ?_, ?_, ?_⟩
  · obtain ⟨mid, h1, h2, h3, -, -⟩ :=
      splitFold_shape p.vs (st.lines ++ [st.line]) ("      " ++ p.fds_label ++ "=")
    exact ⟨mid, by rw [hstep]; exact h1, h2, h3⟩
  · obtain ⟨w, hw⟩ := splitFold_ends_comma p.vs hvs
      (st.lines ++ [st.line], "      " ++ p.fds_label ++ "=")
    refine ⟨w, hw, ?_⟩
    rw [hstep]
    simp [hw, String.data_append, data_comma, mk_data]
  · intro u hu
    have := splitFold_value_intact p.vs
      (st.lines ++ [st.line], "      " ++ p.fds_label ++ "=") u hu
    rcases this with ⟨l, hl, a, b, he⟩ | ⟨a, b, hb, he⟩
    · exact .inl ⟨l, by rw [hstep]; exact hl, a, b, he⟩
    · refine .inr ⟨a, b.dropLast, ?_⟩
      rw [hstep]
      simp only [data_mk, he]
      rw [show a ++ u.data ++ b = a ++ (u.data ++ b) from by simp,
        List.dropLast_append_of_ne_nil _ (by simp [hb]),
        List.dropLast_append_of_ne_nil _ hb]
      simp

/-- 38 `A`s: one value of the oversized parameter in the C7 counterexample. -/
def vA1 : String := "AAAAAAAAAAAAAAAAAAAAAAAAAAAAAAAAAAAAAA"

/-- 38 `B`s: the second value of that parameter. -/
def vB1 : String := "BBBBBBBBBBBBBBBBBBBBBBBBBBBBBBBBBBBBBB"

/-- The oversized parameter `A` (joined values: 77 columns). -/
def exA : FDSParam := ⟨"A", [vA1, vB1], []⟩

/-- The short parameter `B=1` that follows it. -/
def exB : FDSParam := ⟨"B", ["1"], []⟩

/-- The emission state right after parameter `A` was split: open line
`"        " ++ vB1` (46 columns), `newline` flag set. -/
def st7 : EmitState := ⟨["&X", "      A=" ++ vA1 ++ ","], "        " ++ vB1, true⟩

/-- C7 is refuted as stated: in the serialization of
`&X A=<38 As>,<38 Bs> B=1`, after the split of `A`'s value list the open
line holds 46 columns and `B=1` (token length 3) would fit —
`46 + 1 + 3 ≤ 80` — yet the code flushes and starts a new line, because
the `newline` flag is sticky after a split.  The first conjunct shows the
state arises in the run; the second shows the claimed `exactly when`
equivalence is false there. -/
theorem c7_greedy_packing_counterexample :
    ([exA] : List FDSParam).foldl stepParam ⟨[], "&X", false⟩ = st7 ∧
    ¬ (((stepParam st7 exB).lines = st7.lines ∧
        (stepParam st7 exB).line = st7.line ++ " " ++ paramToken exB) ↔
      st7.line.length + 1 + (paramToken exB).length ≤ MAXLEN) := by
  constructor
  · decide
  · decide

/-- 36 `W`s. -/
def w36 : String := "WWWWWWWWWWWWWWWWWWWWWWWWWWWWWWWWWWWW"

/-- 37 `W`s. -/
def w37 : String := "WWWWWWWWWWWWWWWWWWWWWWWWWWWWWWWWWWWWW"

/-- C8 is refuted as stated: this parameter's joined value (74 columns)
cannot fit alone on a fresh 6-space line (`6 + 1 + 1 + 74 > 80`), yet the
whole token still fits on the short record line `&A`, so the serializer
emits it unsplit on a single line — no `LABEL=` build-up, no 8-space
continuation line (the output contains no newline at all). -/
theorem c8_oversized_split_counterexample :
    (toFds (.mk "A" [.paramE ⟨"B", [w36, w37], []⟩] [])).map Prod.fst =
      .ok ("&A B=" ++ w36 ++ "," ++ w37 ++ " /") ∧
    ¬ (("      " ++ "B" ++ "=" : String).length +
        (String.intercalate "," [w36, w37]).length ≤ MAXLEN) ∧
    Char.ofNat 10 ∉ ("&A B=" ++ w36 ++ "," ++ w37 ++ " /").data := by
  refine ⟨by rfl, by decide, by decide⟩

/-- 40 `U`s and 40 `V`s: values that do not fit the record line at all. -/
def w40a : String := "UUUUUUUUUUUUUUUUUUUUUUUUUUUUUUUUUUUUUUUU"

def w40b : String := "VVVVVVVVVVVVVVVVVVVVVVVVVVVVVVVVVVVVVVVV"

/-- The parameter of the C8 witness: joined value of 81 columns. -/
def pw8 : FDSParam := ⟨"B", [w40a, w40b], []⟩

/-- The starting state of the C8 witness. -/
def stw8 : EmitState := ⟨[], "&A", false⟩

/-- Witness for `c8_oversized_value_split` at a concrete input. -/
theorem c8_oversized_value_split_witness :
    (pw8.fds_label ≠ "") ∧ (pw8.vs ≠ []) ∧
    (¬ (stw8.newline = false ∧
      stw8.line.length + 1 + pw8.fds_label.length + 1 +
        (String.intercalate "," pw8.vs).length ≤ MAXLEN)) ∧
    (¬ (("      " ++ pw8.fds_label ++ "=").length +
      (String.intercalate "," pw8.vs).length ≤ MAXLEN)) ∧
    ((stepParam stw8 pw8 =
      ⟨(pw8.vs.foldl splitStep (stw8.lines ++ [stw8.line], "      " ++ pw8.fds_label ++ "=")).1,
       String.mk (pw8.vs.foldl splitStep
         (stw8.lines ++ [stw8.line], "      " ++ pw8.fds_label ++ "=")).2.data.dropLast,
       true⟩) ∧
    (∃ mid, (stepParam stw8 pw8).lines = (stw8.lines ++ [stw8.line]) ++ mid ∧
      (∀ l ∈ mid, (∃ ext, l = "      " ++ pw8.fds_label ++ "=" ++ ext) ∨
        (∃ w, l = "        " ++ w)) ∧
      (mid ≠ [] → ∃ ext, mid.head? = some ("      " ++ pw8.fds_label ++ "=" ++ ext))) ∧
    (∃ w, (pw8.vs.foldl splitStep
        (stw8.lines ++ [stw8.line], "      " ++ pw8.fds_label ++ "=")).2 = w ++ "," ∧
      (stepParam stw8 pw8).line = w) ∧
    (∀ u ∈ pw8.vs, (∃ l ∈ (stepParam stw8 pw8).lines, ∃ a b, l.data = a ++ u.data ++ b) ∨
      (∃ a b, (stepParam stw8 pw8).line.data = a ++ u.data ++ b))) :=
  ⟨by decide, by decide, by decide, by decide,
    c8_oversized_value_split stw8 pw8 (by decide) (by decide) (by decide) (by decide)⟩

/-- Witness for `c7_greedy_packing` at a concrete input. -/
theorem c7_greedy_packing_witness :
    (("ID" : String) ≠ "") ∧
    ((((stepParam ⟨[], "&OBST", false⟩ ⟨"ID", ["'A'"], []⟩).lines = [] ∧
        (stepParam ⟨[], "&OBST", false⟩ ⟨"ID", ["'A'"], []⟩).line =
          "&OBST" ++ " " ++ paramToken ⟨"ID", ["'A'"], []⟩) ↔
      (false = false ∧ ("&OBST" : String).length + 1 +
        (paramToken ⟨"ID", ["'A'"], []⟩).length ≤ MAXLEN)) ∧
    (¬ (false = false ∧ ("&OBST" : String).length + 1 +
        (paramToken ⟨"ID", ["'A'"], []⟩).length ≤ MAXLEN) →
      ∃ ext rest, (stepParam ⟨[], "&OBST", false⟩ ⟨"ID", ["'A'"], []⟩).lines ++
          [(stepParam ⟨[], "&OBST", false⟩ ⟨"ID", ["'A'"], []⟩).line] =
        [] ++ ["&OBST"] ++ (("      " ++ "ID" ++ ext) :: rest))) :=
  ⟨by decide, c7_greedy_packing ⟨[], "&OBST", false⟩ ⟨"ID", ["'A'"], []⟩ (by decide)⟩

/-- Witness for `c2_record_line_bound` at a concrete input. -/
theorem c2_record_line_bound_witness :
    (("OBST" : String).length ≤ 79) ∧
    (∀ p ∈ ([⟨"ID", ["'A'"], []⟩] : List FDSParam),
      p.fds_label.length ≤ 73 ∧ ∀ v ∈ p.vs, v.length ≤ 71) ∧
    (∀ l ∈ emitRecord "OBST" [⟨"ID", ["'A'"], []⟩], l.length ≤ 82) :=
  ⟨by decide, by decide,
    c2_record_line_bound "OBST" [⟨"ID", ["'A'"], []⟩] (by decide) (by decide)⟩

/-! ### C3, C4: multi expansion and shadowing -/

/-- The invariant params that survive shadowing: those whose label does
not occur among the labels of the multi's first sub-group. -/
def survivors (inv g0 : List FDSParam) : List FDSParam :=
  inv.filter (fun p => !((g0.map (fun q => q.fds_label)).contains p.fds_label))

theorem buildNls_multi (st : CState) (g0 : List FDSParam)
    (gs : List (List FDSParam)) (hm : st.multi = some (g0 :: gs)) :
    buildNls st = (g0 :: gs).map (fun g => survivors st.inv g0 ++ g) := by
  unfold buildNls
  rw [hm]
  simp [survivors]

theorem emitRecord_split (label : String) (nl : List FDSParam) :
    ∃ ls last, emitRecord label nl = ls ++ [last ++ " /"] :=
  ⟨(nl.foldl stepParam ⟨[], "&" ++ label, false⟩).lines,
   (nl.foldl stepParam ⟨[], "&" ++ label, false⟩).line, rfl⟩

/-- Successful serialization decomposed: the produced text is the message
lines, then the nested-namelist blobs, then the record lines of
`buildNls`, and the updated namelist carries the extended message list and
the updated entries. -/
theorem toFds_ok_decomp (label : String) (ps : List FDSEntry) (msgs : List String)
    (st : CState) (s : String) (t' : FDSNamelist)
    (hcl : classifyEntries ps initCState = .ok st)
    (htf : toFds (.mk label ps msgs) = .ok (s, t')) :
    ∃ blobs, seqResults st.addRes = .ok blobs ∧
      s = String.intercalate "\n"
        ((((msgs ++ st.addMsgs).filter (fun m => m ≠ "")).map (fun m => "! " ++ m)) ++
          blobs.map Prod.fst ++
          (if label ≠ "" then ((buildNls st).map (emitRecord label)).flatten else [])) ∧
      t' = .mk label st.updated (msgs ++ st.addMsgs) := by
  unfold toFds at htf
  rw [hcl] at htf
  dsimp only at htf
  cases hseq : seqResults st.addRes with
  | error e => rw [hseq] at htf; simp at htf
  | ok blobs =>
      rw [hseq] at htf
      simp only [Except.ok.injEq, Prod.mk.injEq] at htf
      exact ⟨blobs, rfl, htf.1.symm, htf.2.symm⟩

/-- C3: when classification captures a multi of `N = gs.length + 1`
sub-groups and the group label is truthy, the serialized text ends with
the records of `buildNls`: exactly one record block per sub-group, in
order, the `k`-th built from the surviving invariant params (in original
order) followed by the `k`-th sub-group's params (in original order); each
record block is a run of lines whose last line ends in `" /"`. -/
theorem c3_multi_expansion (label : String) (ps : List FDSEntry) (msgs : List String)
    (st : CState) (g0 : List FDSParam) (gs : List (List FDSParam))
    (s : String) (t' : FDSNamelist)
    (hcl : classifyEntries ps initCState = .ok st)
    (hm : st.multi = some (g0 :: gs))
    (hlab : label ≠ "")
    (htf : toFds (.mk label ps msgs) = .ok (s, t')) :
    ∃ pre, s = String.intercalate "\n"
        (pre ++ (((g0 :: gs).map (fun g =>
          emitRecord label (survivors st.inv g0 ++ g))).flatten)) ∧
      ((g0 :: gs).map (fun g => emitRecord label (survivors st.inv g0 ++ g))).length =
        gs.length + 1 ∧
      (∀ g ∈ (g0 :: gs), ∃ ls last,
        emitRecord label (survivors st.inv g0 ++ g) = ls ++ [last ++ " /"]) := by
  obtain ⟨blobs, hseq, hs, ht⟩ := toFds_ok_decomp label ps msgs st s t' hcl htf
  refine ⟨(((msgs ++ st.addMsgs).filter (fun m => m ≠ "")).map (fun m => "! " ++ m)) ++
      blobs.map Prod.fst, ?_, by simp, fun g _ => emitRecord_split label _⟩
  rw [hs, if_pos hlab, buildNls_multi st g0 gs hm]
  simp [List.append_assoc, Function.comp_def]

/-- C4: under a captured multi, every record parameter sequence consists
of the surviving invariant params — none of which bears a label of the
first sub-group — followed by one sub-group; hence any parameter of the
record whose label belongs to the first sub-group's label set comes from
that sub-group, not from the invariant part. -/
theorem c4_shadowing (st : CState) (g0 : List FDSParam)
    (gs : List (List FDSParam)) (hm : st.multi = some (g0 :: gs)) :
    (∀ p ∈ survivors st.inv g0, p.fds_label ∉ g0.map (fun q => q.fds_label)) ∧
    (∀ nl ∈ buildNls st, ∃ g, g ∈ (g0 :: gs) ∧ nl = survivors st.inv g0 ++ g ∧
      (∀ q ∈ nl, q.fds_label ∈ g0.map (fun q' => q'.fds_label) → q ∈ g)) := by
  have hsurv : ∀ p ∈ survivors st.inv g0, p.fds_label ∉ g0.map (fun q => q.fds_label) := by
    intro p hp
    have := List.of_mem_filter hp
    simpa using this
  refine ⟨hsurv, ?_⟩
  intro nl hnl
  rw [buildNls_multi st g0 gs hm] at hnl
  obtain ⟨g, hg, rfl⟩ := List.mem_map.mp hnl
  refine ⟨g, hg, rfl, ?_⟩
  intro q hq hql
  rcases List.mem_append.mp hq with h | h
  · exact absurd hql (hsurv q h)
  · exact h

/-- The C3/C4 witness namelist: one invariant `SURF_ID` param and a multi
of two sub-groups, each with its own `ID`. -/
def nl3ps : List FDSEntry :=
  [.paramE ⟨"SURF_ID", ["'INERT'"], []⟩,
   .multiE [[⟨"ID", ["'A'"], []⟩], [⟨"ID", ["'B'"], []⟩]] []]

/-- Its classification result. -/
def st3 : CState :=
  ⟨[⟨"SURF_ID", ["'INERT'"], []⟩], [],
   some [[⟨"ID", ["'A'"], []⟩], [⟨"ID", ["'B'"], []⟩]], [], nl3ps⟩

/-- Witness for `c3_multi_expansion` at a concrete input. -/
theorem c3_multi_expansion_witness :
    classifyEntries nl3ps initCState = .ok st3 ∧
    st3.multi = some [[⟨"ID", ["'A'"], []⟩], [⟨"ID", ["'B'"], []⟩]] ∧
    ("OBST" : String) ≠ "" ∧
    (∃ s t', toFds (.mk "OBST" nl3ps []) = .ok (s, t') ∧
      ∃ pre, s = String.intercalate "\n"
        (pre ++ ((([[⟨"ID", ["'A'"], []⟩], [⟨"ID", ["'B'"], []⟩]] :
            List (List FDSParam)).map (fun g =>
          emitRecord "OBST" (survivors st3.inv [⟨"ID", ["'A'"], []⟩] ++ g))).flatten)) ∧
      (([[⟨"ID", ["'A'"], []⟩], [⟨"ID", ["'B'"], []⟩]] :
          List (List FDSParam)).map (fun g =>
        emitRecord "OBST" (survivors st3.inv [⟨"ID", ["'A'"], []⟩] ++ g))).length = 2 ∧
      (∀ g ∈ ([[⟨"ID", ["'A'"], []⟩], [⟨"ID", ["'B'"], []⟩]] : List (List FDSParam)),
        ∃ ls last,
          emitRecord "OBST" (survivors st3.inv [⟨"ID", ["'A'"], []⟩] ++ g) =
            ls ++ [last ++ " /"])) := by
  refine ⟨by rfl, by rfl, by decide, ?_⟩
  refine ⟨"&OBST SURF_ID='INERT' ID='A' /\n&OBST SURF_ID='INERT' ID='B' /",
    .mk "OBST" nl3ps [], by rfl, ?_⟩
  exact c3_multi_expansion "OBST" nl3ps [] st3 [⟨"ID", ["'A'"], []⟩]
    [[⟨"ID", ["'B'"], []⟩]] _ _ (by rfl) (by rfl) (by decide) (by rfl)

/-- Witness for `c4_shadowing` at a concrete input (an invariant `ID`
param shadowed by the multi's first sub-group). -/
theorem c4_shadowing_witness :
    (let stw : CState :=
      ⟨[⟨"ID", ["'OLD'"], []⟩, ⟨"SURF_ID", ["'INERT'"], []⟩], [],
       some [[⟨"ID", ["'A'"], []⟩], [⟨"ID", ["'B'"], []⟩]], [], []⟩
    stw.multi = some [[⟨"ID", ["'A'"], []⟩], [⟨"ID", ["'B'"], []⟩]] ∧
    ((∀ p ∈ survivors stw.inv [⟨"ID", ["'A'"], []⟩],
        p.fds_label ∉ ([⟨"ID", ["'A'"], []⟩] : List FDSParam).map (fun q => q.fds_label)) ∧
      (∀ nl ∈ buildNls stw, ∃ g,
        g ∈ ([[⟨"ID", ["'A'"], []⟩], [⟨"ID", ["'B'"], []⟩]] : List (List FDSParam)) ∧
        nl = survivors stw.inv [⟨"ID", ["'A'"], []⟩] ++ g ∧
        (∀ q ∈ nl, q.fds_label ∈
            ([⟨"ID", ["'A'"], []⟩] : List FDSParam).map (fun q' => q'.fds_label) →
          q ∈ g)))) := by
  exact ⟨by rfl, c4_shadowing _ [⟨"ID", ["'A'"], []⟩] [[⟨"ID", ["'B'"], []⟩]] (by rfl)⟩

/-! ### C5, C6, C10: classification errors and the empty multi-group -/

/-- Once a non-empty multi is captured, successful classification keeps it. -/
theorem classify_multi_preserved :
    ∀ (es : List FDSEntry) (st : CState), ∀ g0 gs st',
      st.multi = some (g0 :: gs) → classifyEntries es st = .ok st' →
      st'.multi = some (g0 :: gs) := by
  intro es st
  induction es, st using classifyEntries.induct
  case case1 => exact trivial
  case case2 => exact trivial
  case case3 => exact trivial
  all_goals intro g0 gs st' hm hcl
  case case4 =>
    unfold classifyEntries at hcl
    simp only [Except.ok.injEq] at hcl
    subst hcl; exact hm
  case case5 st rest ih =>
    unfold classifyEntries at hcl
    exact ih g0 gs st' hm hcl
  case case6 st p rest ih =>
    unfold classifyEntries at hcl
    exact ih g0 gs st' hm hcl
  case case7 st n rest _ ih =>
    unfold classifyEntries at hcl
    exact ih g0 gs st' hm hcl
  case case8 st inner m rest e herr ih =>
    unfold classifyEntries at hcl
    rw [herr] at hcl
    exact absurd hcl (by simp)
  case case9 st inner m rest st1 hok ih1 ih2 =>
    unfold classifyEntries at hcl
    rw [hok] at hcl
    have hst1 : st1.multi = some (g0 :: gs) := ih1 g0 gs st1 hm hok
    exact ih2 g0 gs st' hst1 hcl
  case case10 st ps m rest g0x gsx hmx =>
    unfold classifyEntries at hcl
    rw [hmx] at hcl
    exact absurd hcl (by simp)
  case case11 st ps m rest hno ih =>
    exact absurd hm (fun h => hno g0 gs h)
  case case12 st s tail =>
    unfold classifyEntries at hcl
    exact absurd hcl (by simp)

/-- With a non-empty multi already captured, any further `FDSMulti` entry
among the (recursively classified) entries makes classification raise. -/
theorem classify_multi_errors :
    ∀ (es : List FDSEntry) (st : CState), ∀ g0 gs ps2 mm2,
      st.multi = some (g0 :: gs) → FDSEntry.multiE ps2 mm2 ∈ es →
      ∃ e, classifyEntries es st = .error e := by
  intro es st
  induction es, st using classifyEntries.induct
  case case1 => exact trivial
  case case2 => exact trivial
  case case3 => exact trivial
  all_goals intro g0 gs ps2 mm2 hm hmem
  case case4 => simp at hmem
  case case5 st rest ih =>
    rcases List.mem_cons.mp hmem with h | h
    · exact absurd h (by simp)
    · obtain ⟨e, he⟩ := ih g0 gs ps2 mm2 hm h
      exact ⟨e, by unfold classifyEntries; exact he⟩
  case case6 st p rest ih =>
    rcases List.mem_cons.mp hmem with h | h
    · exact absurd h (by simp)
    · obtain ⟨e, he⟩ := ih g0 gs ps2 mm2 hm h
      exact ⟨e, by unfold classifyEntries; exact he⟩
  case case7 st n rest _ ih =>
    rcases List.mem_cons.mp hmem with h | h
    · exact absurd h (by simp)
    · obtain ⟨e, he⟩ := ih g0 gs ps2 mm2 hm h
      exact ⟨e, by unfold classifyEntries; exact he⟩
  case case8 st inner m rest e herr ih =>
    exact ⟨e, by unfold classifyEntries; rw [herr]⟩
  case case9 st inner m rest st1 hok ih1 ih2 =>
    rcases List.mem_cons.mp hmem with h | h
    · exact absurd h (by simp)
    · have hst1 : st1.multi = some (g0 :: gs) :=
        classify_multi_preserved inner
          ⟨st.inv, st.addRes, st.multi, st.addMsgs, []⟩ g0 gs st1 hm hok
      obtain ⟨e, he⟩ := ih2 g0 gs ps2 mm2 hst1 h
      exact ⟨e, by unfold classifyEntries; rw [hok]; exact he⟩
  case case10 st ps m rest g0x gsx hmx =>
    exact ⟨"One only FDSMulti allowed", by unfold classifyEntries; rw [hmx]⟩
  case case11 st ps m rest hno ih =>
    exact absurd hm (fun h => hno g0 gs h)
  case case12 st s tail =>
    exact ⟨"Unrecognized type of " ++ s, by unfold classifyEntries; rfl⟩

/-- Classification of a list that holds a non-empty `FDSMulti` followed —
possibly after other entries — by a second `FDSMulti` always raises. -/
theorem classify_two_multis (g0 : List FDSParam) (gs : List (List FDSParam))
    (mm : List String) (ps2 : List (List FDSParam)) (mm2 : List String) :
    ∀ (pre : List FDSEntry) (st : CState) (rest : List FDSEntry),
      FDSEntry.multiE ps2 mm2 ∈ rest →
      ∃ e, classifyEntries (pre ++ FDSEntry.multiE (g0 :: gs) mm :: rest) st =
        .error e := by
  intro pre
  induction pre with
  | nil =>
    intro st rest hmem
    simp only [List.nil_append]
    unfold classifyEntries
    cases hm : st.multi with
    | none =>
      exact classify_multi_errors rest _ g0 gs ps2 mm2 rfl hmem
    | some m =>
      cases m with
      | nil => exact classify_multi_errors rest _ g0 gs ps2 mm2 rfl hmem
      | cons a b => exact ⟨"One only FDSMulti allowed", rfl⟩
  | cons h pre ih =>
    intro st rest hmem
    simp only [List.cons_append]
    cases h with
    | noneE => unfold classifyEntries; exact ih _ rest hmem
    | paramE p => unfold classifyEntries; exact ih _ rest hmem
    | nmlE n => unfold classifyEntries; exact ih _ rest hmem
    | manyE inner m =>
      unfold classifyEntries
      cases hin : classifyEntries inner _ with
      | error e => exact ⟨e, rfl⟩
      | ok st1 => exact ih _ rest hmem
    | multiE ps m =>
      unfold classifyEntries
      cases hm : st.multi with
      | none => exact ih _ rest hmem
      | some mx =>
        cases mx with
        | nil => exact ih _ rest hmem
        | cons a b => exact ⟨"One only FDSMulti allowed", rfl⟩
    | otherE s => exact ⟨"Unrecognized type of " ++ s, by unfold classifyEntries; rfl⟩

/-- A classification error aborts `to_fds` before any text is produced. -/
theorem toFds_error_of_classify (label : String) (ps : List FDSEntry)
    (msgs : List String) (e : String)
    (h : classifyEntries ps initCState = .error e) :
    toFds (.mk label ps msgs) = .error e := by
  unfold toFds
  rw [h]

/-- C5 (amended): serialization fails with the construction error — before
any text is produced — whenever the entries contain a Multi-group with at
least one sub-group followed, anywhere later in the entry list, by another
Multi-group entry.  (The original claim, for any two Multi-groups, fails
when the earlier ones are empty: see `c5_two_multis_counterexample`.) -/
theorem c5_two_multis (label : String) (msgs : List String)
    (pre mid post : List FDSEntry) (g0 : List FDSParam)
    (gs ps2 : List (List FDSParam)) (mm mm2 : List String) :
    ∃ e, toFds (.mk label
      (pre ++ FDSEntry.multiE (g0 :: gs) mm ::
        (mid ++ FDSEntry.multiE ps2 mm2 :: post)) msgs) = .error e := by
  obtain ⟨e, he⟩ := classify_two_multis g0 gs mm ps2 mm2 pre initCState
    (mid ++ FDSEntry.multiE ps2 mm2 :: post) (by simp)
  exact ⟨e, toFds_error_of_classify label _ msgs e he⟩

/-- Witness for `c5_two_multis` at a concrete input. -/
theorem c5_two_multis_witness :
    ∃ e, toFds (.mk "X"
      ([] ++ FDSEntry.multiE [[⟨"ID", ["'A'"], []⟩]] [] ::
        ([] ++ FDSEntry.multiE [[⟨"ID", ["'B'"], []⟩]] [] :: [])) []) = .error e :=
  c5_two_multis "X" [] [] [] [] [⟨"ID", ["'A'"], []⟩] [] [[⟨"ID", ["'B'"], []⟩]] [] []

/-- C5 is refuted as stated: a namelist whose entries are two Multi-groups,
the first of which has zero sub-groups, serializes successfully — the
emptiness of the captured multi makes the `one only FDSMulti` truthiness
check pass, and the second multi silently replaces the first. -/
theorem c5_two_multis_counterexample :
    toFds (.mk "X" [.multiE [] [], .multiE [[⟨"A", ["1"], []⟩]] []] []) =
      .ok ("&X A=1 /", .mk "X" [.multiE [] [], .multiE [[⟨"A", ["1"], []⟩]] []] []) := by
  rfl

/-- Classification raises on any entry list that contains an entry of an
unrecognized kind, whatever the state. -/
theorem classify_other_errors :
    ∀ (es : List FDSEntry) (st : CState) (s : String),
      FDSEntry.otherE s ∈ es → ∃ e, classifyEntries es st = .error e := by
  intro es
  induction es with
  | nil => intro st s hmem; simp at hmem
  | cons h rest ih =>
    intro st s hmem
    cases h with
    | noneE =>
      have hmem' : FDSEntry.otherE s ∈ rest := by
        rcases List.mem_cons.mp hmem with h | h
        · exact absurd h (by simp)
        · exact h
      obtain ⟨e, he⟩ := ih _ s hmem'
      exact ⟨e, by unfold classifyEntries; exact he⟩
    | paramE p =>
      have hmem' : FDSEntry.otherE s ∈ rest := by
        rcases List.mem_cons.mp hmem with h | h
        · exact absurd h (by simp)
        · exact h
      obtain ⟨e, he⟩ := ih _ s hmem'
      exact ⟨e, by unfold classifyEntries; exact he⟩
    | nmlE n =>
      have hmem' : FDSEntry.otherE s ∈ rest := by
        rcases List.mem_cons.mp hmem with h | h
        · exact absurd h (by simp)
        · exact h
      obtain ⟨e, he⟩ := ih _ s hmem'
      exact ⟨e, by unfold classifyEntries; exact he⟩
    | manyE inner m =>
      have hmem' : FDSEntry.otherE s ∈ rest := by
        rcases List.mem_cons.mp hmem with h | h
        · exact absurd h (by simp)
        · exact h
      cases hin : classifyEntries inner
          ⟨st.inv, st.addRes, st.multi, st.addMsgs, []⟩ with
      | error e => exact ⟨e, by unfold classifyEntries; rw [hin]⟩
      | ok st1 =>
        obtain ⟨e, he⟩ := ih _ s hmem'
        exact ⟨e, by unfold classifyEntries; rw [hin]; exact he⟩
    | multiE ps m =>
      have hmem' : FDSEntry.otherE s ∈ rest := by
        rcases List.mem_cons.mp hmem with h | h
        · exact absurd h (by simp)
        · exact h
      cases hm : st.multi with
      | none =>
        obtain ⟨e, he⟩ := ih _ s hmem'
        exact ⟨e, by unfold classifyEntries; rw [hm]; exact he⟩
      | some mx =>
        cases mx with
        | nil =>
          obtain ⟨e, he⟩ := ih _ s hmem'
          exact ⟨e, by unfold classifyEntries; rw [hm]; exact he⟩
        | cons a b =>
          exact ⟨"One only FDSMulti allowed",
            by unfold classifyEntries; rw [hm]⟩
    | otherE s2 =>
      exact ⟨"Unrecognized type of " ++ s2, by unfold classifyEntries; rfl⟩

/-- C10 (amended): every entry that is not `None` and not one of the four
recognized kinds (`FDSParam`, `FDSNamelist`, `FDSMany`, `FDSMulti`) makes
classification — and hence `to_fds` — fail with the construction error.
(`None` entries, contrary to the original claim, are silently skipped: see
`c10_unrecognized_counterexample`.) -/
theorem c10_unrecognized_entry (label : String) (msgs : List String)
    (es : List FDSEntry) (s : String) (hmem : FDSEntry.otherE s ∈ es) :
    ∃ e, toFds (.mk label es msgs) = .error e := by
  obtain ⟨e, he⟩ := classify_other_errors es initCState s hmem
  exact ⟨e, toFds_error_of_classify label es msgs e he⟩

/-- Witness for `c10_unrecognized_entry` at a concrete input. -/
theorem c10_unrecognized_entry_witness :
    (FDSEntry.otherE "3.14" ∈ [FDSEntry.paramE ⟨"A", ["1"], []⟩,
      FDSEntry.otherE "3.14"]) ∧
    ∃ e, toFds (.mk "X" [FDSEntry.paramE ⟨"A", ["1"], []⟩,
      FDSEntry.otherE "3.14"] []) = .error e :=
  ⟨by simp,
   c10_unrecognized_entry "X" [] [FDSEntry.paramE ⟨"A", ["1"], []⟩,
     FDSEntry.otherE "3.14"] "3.14" (by simp)⟩

/-- C10 is refuted as stated for `None` entries: `_classify_fds_param`
matches `case None: return`, so a `None` entry is skipped without error
and serialization succeeds. -/
theorem c10_unrecognized_counterexample :
    toFds (.mk "X" [.noneE] []) = .ok ("&X /", .mk "X" [.noneE] []) := by
  rfl

/-- The truthiness view of the captured multi: a captured empty
`FDSMulti` behaves exactly like no captured multi (both are falsy in the
`if self._multi_ps:` checks). -/
def normMulti : Option (List (List FDSParam)) → Option (List (List FDSParam))
  | some [] => none
  | m => m

theorem normMulti_eq_some {m : Option (List (List FDSParam))}
    {g0 : List FDSParam} {gs : List (List FDSParam)}
    (h : normMulti m = some (g0 :: gs)) : m = some (g0 :: gs) := by
  cases m with
  | none => simp [normMulti] at h
  | some mx => cases mx with
    | nil => simp [normMulti] at h
    | cons a b => simpa [normMulti] using h

theorem buildNls_norm (st1 st2 : CState) (hinv : st1.inv = st2.inv)
    (hm : normMulti st1.multi = normMulti st2.multi) :
    buildNls st1 = buildNls st2 := by
  unfold buildNls
  cases h1 : st1.multi with
  | none =>
    cases h2 : st2.multi with
    | none => simp [hinv]
    | some m2 =>
      cases m2 with
      | nil => simp [hinv]
      | cons a b => rw [h1, h2] at hm; simp [normMulti] at hm
  | some m1 =>
    cases m1 with
    | nil =>
      cases h2 : st2.multi with
      | none => simp [hinv]
      | some m2 =>
        cases m2 with
        | nil => simp [hinv]
        | cons a b => rw [h1, h2] at hm; simp [normMulti] at hm
    | cons a1 b1 =>
      have h2 : st2.multi = some (a1 :: b1) :=
        normMulti_eq_some (by rw [← hm, h1]; rfl)
      rw [h2, hinv]

/-- Bisimulation of classification under the truthiness view: two states
that agree on `inv`, `addRes` and `addMsgs` and whose captured multis are
equal up to `normMulti` classify any entry list to the same error, or to
states that again agree in that sense. -/
theorem classify_norm :
    ∀ (es : List FDSEntry) (st1 : CState), ∀ st2 : CState,
      st1.inv = st2.inv → st1.addRes = st2.addRes → st1.addMsgs = st2.addMsgs →
      normMulti st1.multi = normMulti st2.multi →
      (∃ e, classifyEntries es st1 = .error e ∧ classifyEntries es st2 = .error e) ∨
      (∃ st1' st2', classifyEntries es st1 = .ok st1' ∧
        classifyEntries es st2 = .ok st2' ∧
        st1'.inv = st2'.inv ∧ st1'.addRes = st2'.addRes ∧
        st1'.addMsgs = st2'.addMsgs ∧ normMulti st1'.multi = normMulti st2'.multi) := by
  intro es st1
  induction es, st1 using classifyEntries.induct
  case case1 => exact trivial
  case case2 => exact trivial
  case case3 => exact trivial
  all_goals intro st2 hinv hres hmsg hm
  case case4 st1 =>
    exact .inr ⟨st1, st2, rfl, rfl, hinv, hres, hmsg, hm⟩
  case case5 st1 rest ih =>
    have := ih ⟨st2.inv, st2.addRes, st2.multi, st2.addMsgs,
      st2.updated ++ [.noneE]⟩ hinv hres hmsg hm
    rcases this with ⟨e, he1, he2⟩ | ⟨st1', st2', h1, h2, hs⟩
    · exact .inl ⟨e, by unfold classifyEntries; exact he1,
        by unfold classifyEntries; exact he2⟩
    · exact .inr ⟨st1', st2', by unfold classifyEntries; exact h1,
        by unfold classifyEntries; exact h2, hs⟩
  case case6 st1 p rest ih =>
    have := ih ⟨st2.inv ++ [p], st2.addRes, st2.multi, st2.addMsgs ++ p.msgs,
      st2.updated ++ [.paramE p]⟩ (by simp [hinv]) hres (by simp [hmsg]) hm
    rcases this with ⟨e, he1, he2⟩ | ⟨st1', st2', h1, h2, hs⟩
    · exact .inl ⟨e, by unfold classifyEntries; exact he1,
        by unfold classifyEntries; exact he2⟩
    · exact .inr ⟨st1', st2', by unfold classifyEntries; exact h1,
        by unfold classifyEntries; exact h2, hs⟩
  case case7 n rest res n2 hT ih =>
    have := ih ⟨st2.inv, st2.addRes ++ [toFds n], st2.multi, st2.addMsgs ++ n.msgs,
      st2.updated ++ [.nmlE n2]⟩ hinv (by simp [hres]) (by simp [hmsg]) hm
    rcases this with ⟨e, he1, he2⟩ | ⟨st1', st2', h1, h2, hs⟩
    · exact .inl ⟨e, by unfold classifyEntries; exact he1,
        by unfold classifyEntries; exact he2⟩
    · exact .inr ⟨st1', st2', by unfold classifyEntries; exact h1,
        by unfold classifyEntries; exact h2, hs⟩
  case case8 st1 inner m rest e herr ih1 =>
    have := ih1 ⟨st2.inv, st2.addRes, st2.multi, st2.addMsgs, []⟩ hinv hres hmsg hm
    rcases this with ⟨e2, he1, he2⟩ | ⟨st1', st2', h1, h2, hs⟩
    · rw [herr] at he1
      cases he1
      exact .inl ⟨e, by unfold classifyEntries; rw [herr],
        by unfold classifyEntries; rw [he2]⟩
    · rw [herr] at h1; cases h1
  case case9 st1 inner m rest st1a hok ih1 ih2 =>
    have := ih1 ⟨st2.inv, st2.addRes, st2.multi, st2.addMsgs, []⟩ hinv hres hmsg hm
    rcases this with ⟨e2, he1, he2⟩ | ⟨st1x, st2a, h1, h2, hs1, hs2, hs3, hs4⟩
    · rw [hok] at he1; cases he1
    · rw [hok] at h1
      cases h1
      have := ih2 ⟨st2a.inv, st2a.addRes, st2a.multi, st2a.addMsgs ++ m,
        st2.updated ++ [.manyE st2a.updated m]⟩ hs1 hs2 (by simp [hs3]) hs4
      rcases this with ⟨e, he1, he2⟩ | ⟨st1', st2', h1, h2', hs⟩
      · exact .inl ⟨e, by unfold classifyEntries; rw [hok]; exact he1,
          by unfold classifyEntries; rw [h2]; exact he2⟩
      · exact .inr ⟨st1', st2', by unfold classifyEntries; rw [hok]; exact h1,
          by unfold classifyEntries; rw [h2]; exact h2', hs⟩
  case case10 st1 ps m rest g0 gs hm1 =>
    have hm2 : st2.multi = some (g0 :: gs) :=
      normMulti_eq_some (by rw [← hm, hm1]; rfl)
    exact .inl ⟨"One only FDSMulti allowed",
      by unfold classifyEntries; rw [hm1],
      by unfold classifyEntries; rw [hm2]⟩
  case case11 st1 ps m rest hno ih =>
    have hno2 : ∀ g0 gs, st2.multi = some (g0 :: gs) → False := by
      intro g0 gs h2
      exact hno g0 gs (normMulti_eq_some (by rw [hm, h2]; rfl))
    have := ih ⟨st2.inv, st2.addRes, some ps, st2.addMsgs ++ m,
      st2.updated ++ [.multiE ps m]⟩ hinv hres (by simp [hmsg]) (by rfl)
    rcases this with ⟨e, he1, he2⟩ | ⟨st1', st2', h1, h2, hs⟩
    · refine .inl ⟨e, ?_, ?_⟩
      · unfold classifyEntries
        cases hx : st1.multi with
        | none => exact he1
        | some mx => cases mx with
          | nil => exact he1
          | cons a b => exact absurd hx (fun h => hno a b h)
      · unfold classifyEntries
        cases hx : st2.multi with
        | none => exact he2
        | some mx => cases mx with
          | nil => exact he2
          | cons a b => exact absurd hx (fun h => hno2 a b h)
    · refine .inr ⟨st1', st2', ?_, ?_, hs⟩
      · unfold classifyEntries
        cases hx : st1.multi with
        | none => exact h1
        | some mx => cases mx with
          | nil => exact h1
          | cons a b => exact absurd hx (fun h => hno a b h)
      · unfold classifyEntries
        cases hx : st2.multi with
        | none => exact h2
        | some mx => cases mx with
          | nil => exact h2
          | cons a b => exact absurd hx (fun h => hno2 a b h)
  case case12 st1 s tail =>
    exact .inl ⟨"Unrecognized type of " ++ s,
      by unfold classifyEntries; rfl, by unfold classifyEntries; rfl⟩

/-- Classification processes a concatenation left to right, the first
raised error aborting. -/
theorem classify_append : ∀ (a b : List FDSEntry) (st : CState),
    classifyEntries (a ++ b) st =
      match classifyEntries a st with
      | .error e => .error e
      | .ok st1 => classifyEntries b st1 := by
  intro a
  induction a with
  | nil => intro b st; rfl
  | cons h a' ih =>
    intro b st
    cases h with
    | noneE => exact ih b _
    | paramE p => exact ih b _
    | nmlE n => exact ih b _
    | manyE inner m =>
      have hL : classifyEntries ((FDSEntry.manyE inner m :: a') ++ b) st =
          (match classifyEntries inner ⟨st.inv, st.addRes, st.multi, st.addMsgs, []⟩ with
            | Except.error e => Except.error e
            | Except.ok st1 => classifyEntries (a' ++ b)
                ⟨st1.inv, st1.addRes, st1.multi, st1.addMsgs ++ m,
                 st.updated ++ [FDSEntry.manyE st1.updated m]⟩) := rfl
      have hR : classifyEntries (FDSEntry.manyE inner m :: a') st =
          (match classifyEntries inner ⟨st.inv, st.addRes, st.multi, st.addMsgs, []⟩ with
            | Except.error e => Except.error e
            | Except.ok st1 => classifyEntries a'
                ⟨st1.inv, st1.addRes, st1.multi, st1.addMsgs ++ m,
                 st.updated ++ [FDSEntry.manyE st1.updated m]⟩) := rfl
      rw [hL, hR]
      cases classifyEntries inner ⟨st.inv, st.addRes, st.multi, st.addMsgs, []⟩ with
      | error e => rfl
      | ok st1 => exact ih b _
    | multiE ps m =>
      have hL : classifyEntries ((FDSEntry.multiE ps m :: a') ++ b) st =
          (match st.multi with
            | some (_ :: _) => Except.error "One only FDSMulti allowed"
            | _ => classifyEntries (a' ++ b)
                ⟨st.inv, st.addRes, some ps, st.addMsgs ++ m,
                 st.updated ++ [FDSEntry.multiE ps m]⟩) := rfl
      have hR : classifyEntries (FDSEntry.multiE ps m :: a') st =
          (match st.multi with
            | some (_ :: _) => Except.error "One only FDSMulti allowed"
            | _ => classifyEntries a'
                ⟨st.inv, st.addRes, some ps, st.addMsgs ++ m,
                 st.updated ++ [FDSEntry.multiE ps m]⟩) := rfl
      rw [hL, hR]
      cases st.multi with
      | none => exact ih b _
      | some mx =>
        cases mx with
        | nil => exact ih b _
        | cons g gs => rfl
    | otherE s => rfl

/-- C6 (amended): an `FDSMulti` with zero sub-groups is not rejected — it
is falsy, so it is captured but then treated exactly as if no multi-group
were present: as long as no non-empty multi was captured before it, the
serialized text is the same as for the namelist without that entry, and
the single record is built from the invariant params alone.  (The original
claim, that serialization fails with a ConstructionError, is refuted by
`c6_empty_multi_counterexample`.) -/
theorem c6_empty_multi_treated_as_absent (label : String) (msgs : List String)
    (pre post : List FDSEntry) (stp : CState)
    (hp : classifyEntries pre initCState = .ok stp)
    (hm : normMulti stp.multi = none) :
    (toFds (.mk label (pre ++ FDSEntry.multiE [] [] :: post) msgs)).map Prod.fst =
      (toFds (.mk label (pre ++ post) msgs)).map Prod.fst := by
  have hstep : classifyEntries (FDSEntry.multiE [] [] :: post) stp =
      classifyEntries post
        ⟨stp.inv, stp.addRes, some [], stp.addMsgs ++ [],
         stp.updated ++ [FDSEntry.multiE [] []]⟩ := by
    have hR : classifyEntries (FDSEntry.multiE [] [] :: post) stp =
        (match stp.multi with
          | some (_ :: _) => Except.error "One only FDSMulti allowed"
          | _ => classifyEntries post
              ⟨stp.inv, stp.addRes, some [], stp.addMsgs ++ [],
               stp.updated ++ [FDSEntry.multiE [] []]⟩) := rfl
    rw [hR]
    cases hx : stp.multi with
    | none => rfl
    | some mx =>
      cases mx with
      | nil => rfl
      | cons a b => rw [hx] at hm; simp [normMulti] at hm
  have hL : classifyEntries (pre ++ FDSEntry.multiE [] [] :: post) initCState =
      classifyEntries (FDSEntry.multiE [] [] :: post) stp := by
    rw [classify_append, hp]
  have hRc : classifyEntries (pre ++ post) initCState = classifyEntries post stp := by
    rw [classify_append, hp]
  have hrel := classify_norm post
    ⟨stp.inv, stp.addRes, some [], stp.addMsgs ++ [],
     stp.updated ++ [FDSEntry.multiE [] []]⟩
    stp rfl rfl (by simp) (by rw [hm]; rfl)
  rcases hrel with ⟨e, he1, he2⟩ | ⟨st1', st2', h1, h2, hs1, hs2, hs3, hs4⟩
  · have l1 : toFds (.mk label (pre ++ FDSEntry.multiE [] [] :: post) msgs) =
        .error e := by
      unfold toFds; rw [hL, hstep, he1]
    have l2 : toFds (.mk label (pre ++ post) msgs) = .error e := by
      unfold toFds; rw [hRc, he2]
    rw [l1, l2]
  · unfold toFds
    rw [hL, hstep, h1, hRc, h2]
    dsimp only
    rw [hs2, hs3, buildNls_norm st1' st2' hs1 hs4]
    cases hseq : seqResults st2'.addRes with
    | error e => rfl
    | ok blobs => rfl

/-- Witness for `c6_empty_multi_treated_as_absent` at a concrete input. -/
theorem c6_empty_multi_witness :
    (classifyEntries [] initCState = .ok initCState) ∧
    (normMulti initCState.multi = none) ∧
    ((toFds (.mk "X"
        ([] ++ FDSEntry.multiE [] [] :: [FDSEntry.paramE ⟨"A", ["1"], []⟩]) [])).map
          Prod.fst =
      (toFds (.mk "X"
        ([] ++ [FDSEntry.paramE ⟨"A", ["1"], []⟩]) [])).map Prod.fst) :=
  ⟨rfl, rfl, c6_empty_multi_treated_as_absent "X" [] []
    [FDSEntry.paramE ⟨"A", ["1"], []⟩] initCState rfl rfl⟩

/-- C6 is refuted as stated: a namelist whose entries contain a
Multi-group with zero sub-groups serializes without error, producing the
record of its invariant params. -/
theorem c6_empty_multi_counterexample :
    toFds (.mk "X" [.multiE [] [], .paramE ⟨"A", ["1"], []⟩] []) =
      .ok ("&X A=1 /", .mk "X" [.multiE [] [], .paramE ⟨"A", ["1"], []⟩] []) := by
  rfl

/-! ### C1: purity and determinism of serialization -/

/-- Joint induction: over message-free entries, classification adds no
messages and leaves the entry list unchanged, and `to_fds` returns the
namelist exactly as it was. -/
theorem classify_clean_aux :
    (∀ (es : List FDSEntry) (st : CState), cleanEntries es = true →
      ∀ st', classifyEntries es st = .ok st' →
        st'.addMsgs = st.addMsgs ∧ st'.updated = st.updated ++ es) ∧
    (∀ t : FDSNamelist, cleanEntries t.fds_params = true →
      ∀ s t', toFds t = .ok (s, t') → t' = t) := by
  refine classifyEntries.mutual_induct
    (fun es st => cleanEntries es = true →
      ∀ st', classifyEntries es st = .ok st' →
        st'.addMsgs = st.addMsgs ∧ st'.updated = st.updated ++ es)
    (fun t => cleanEntries t.fds_params = true →
      ∀ s t', toFds t = .ok (s, t') → t' = t)
    ?_ ?_ ?_ ?_ ?_ ?_ ?_ ?_ ?_ ?_ ?_ ?_
  · -- toFds: classification error
    intro l a a1 e herr _ _ s t' htf
    unfold toFds at htf
    rw [herr] at htf
    cases htf
  · -- toFds: nested serialization error
    intro l a a1 st1 hcl e hseq _ _ s t' htf
    unfold toFds at htf
    rw [hcl] at htf
    dsimp only at htf
    rw [hseq] at htf
    cases htf
  · -- toFds: success
    intro l a a1 st1 hcl blobs hseq ih hclean s t' htf
    unfold toFds at htf
    rw [hcl] at htf
    dsimp only at htf
    rw [hseq] at htf
    simp only [Except.ok.injEq, Prod.mk.injEq] at htf
    have hA := ih hclean st1 hcl
    rw [← htf.2]
    rw [hA.1, hA.2]
    simp [initCState]
  · -- classify: nil
    intro st _ st' hcl
    unfold classifyEntries at hcl
    simp only [Except.ok.injEq] at hcl
    subst hcl
    simp
  · -- classify: noneE
    intro st rest ih hclean st' hcl
    unfold classifyEntries at hcl
    have hcr : cleanEntries rest = true := by
      simp [cleanEntries, cleanEntry] at hclean
      exact hclean
    have := ih hcr st' hcl
    refine ⟨this.1, ?_⟩
    rw [this.2]
    simp
  · -- classify: paramE
    intro st p rest ih hclean st' hcl
    unfold classifyEntries at hcl
    have hce : cleanEntry (.paramE p) && cleanEntries rest := by
      simpa [cleanEntries] using hclean
    have hpm : p.msgs = [] := by
      have := (Bool.and_eq_true _ _ ▸ hce).1
      simpa [cleanEntry, List.isEmpty_iff] using this
    have hcr : cleanEntries rest = true := (Bool.and_eq_true _ _ ▸ hce).2
    have := ih hcr st' hcl
    refine ⟨?_, ?_⟩
    · rw [this.1, hpm]; simp
    · rw [this.2]; simp
  · -- classify: nmlE
    intro st n rest res n' ihB ih hclean st' hcl
    have hn'0 : n' = (match toFds n with
        | Except.ok (_, nn) => nn
        | Except.error _ => n) := rfl
    unfold classifyEntries at hcl
    change classifyEntries rest
        ⟨st.inv, st.addRes ++ [res], st.multi, st.addMsgs ++ n.msgs,
         st.updated ++ [FDSEntry.nmlE n']⟩ = Except.ok st' at hcl
    clear_value n' res
    cases n with
    | mk ln psn mn =>
      have hce : cleanEntry (.nmlE (.mk ln psn mn)) && cleanEntries rest := by
        simpa [cleanEntries] using hclean
      have hm0 : mn = [] ∧ cleanEntries psn = true := by
        have := (Bool.and_eq_true _ _ ▸ hce).1
        simpa [cleanEntry, List.isEmpty_iff, Bool.and_eq_true] using this
      have hcr : cleanEntries rest = true := (Bool.and_eq_true _ _ ▸ hce).2
      have hn' : n' = FDSNamelist.mk ln psn mn := by
        rw [hn'0]
        cases htf2 : toFds (FDSNamelist.mk ln psn mn) with
        | error e => rfl
        | ok pr =>
          cases pr with
          | mk sx nn =>
            show nn = FDSNamelist.mk ln psn mn
            exact ihB (by simpa [FDSNamelist.fds_params] using hm0.2) sx nn htf2
      have := ih hcr st' hcl
      refine ⟨?_, ?_⟩
      · rw [this.1, hm0.1]
        show st.addMsgs ++ FDSNamelist.msgs (.mk ln psn []) = st.addMsgs
        simp [FDSNamelist.msgs]
      · rw [this.2, hn']
        simp
  · -- classify: manyE, inner classification error
    intro st inner m rest e herr ih hclean st' hcl
    unfold classifyEntries at hcl
    rw [herr] at hcl
    cases hcl
  · -- classify: manyE, inner classification ok
    intro st inner m rest st1 hok ih1 ih2 hclean st' hcl
    unfold classifyEntries at hcl
    rw [hok] at hcl
    have hce : cleanEntry (.manyE inner m) && cleanEntries rest := by
      simpa [cleanEntries] using hclean
    have hm0 : m = [] ∧ cleanEntries inner = true := by
      have := (Bool.and_eq_true _ _ ▸ hce).1
      simpa [cleanEntry, List.isEmpty_iff, Bool.and_eq_true] using this
    have hcr : cleanEntries rest = true := (Bool.and_eq_true _ _ ▸ hce).2
    have h1 := ih1 hm0.2 st1 hok
    have := ih2 hcr st' hcl
    refine ⟨?_, ?_⟩
    · rw [this.1]
      show st1.addMsgs ++ m = st.addMsgs
      rw [h1.1, hm0.1]
      simp
    · rw [this.2]
      show (st.updated ++ [FDSEntry.manyE st1.updated m]) ++ rest = _
      rw [h1.2]
      simp
  · -- classify: multiE with a captured non-empty multi — raises
    intro st ps m rest g0 gs hm _ st' hcl
    unfold classifyEntries at hcl
    rw [hm] at hcl
    cases hcl
  · -- classify: multiE, captured
    intro st ps m rest hno ih hclean st' hcl
    have hce : cleanEntry (.multiE ps m) && cleanEntries rest := by
      simpa [cleanEntries] using hclean
    have hm0 : m = [] := by
      have := (Bool.and_eq_true _ _ ▸ hce).1
      simpa [cleanEntry, List.isEmpty_iff] using this
    have hcr : cleanEntries rest = true := (Bool.and_eq_true _ _ ▸ hce).2
    have hcl' : classifyEntries rest
        ⟨st.inv, st.addRes, some ps, st.addMsgs ++ m,
         st.updated ++ [FDSEntry.multiE ps m]⟩ = .ok st' := by
      unfold classifyEntries at hcl
      cases hx : st.multi with
      | none => rw [hx] at hcl; exact hcl
      | some mx =>
        cases mx with
        | nil => rw [hx] at hcl; exact hcl
        | cons a b => exact absurd hx (fun h => hno a b h)
    have := ih hcr st' hcl'
    refine ⟨?_, ?_⟩
    · rw [this.1]
      show st.addMsgs ++ m = st.addMsgs
      rw [hm0]; simp
    · rw [this.2]; simp
  · -- classify: otherE — raises
    intro st s tail _ st' hcl
    unfold classifyEntries at hcl
    cases hcl

/-- Over message-free entries, `to_fds` does not change the namelist. -/
theorem toFds_clean_id (t : FDSNamelist)
    (hclean : cleanEntries t.fds_params = true) (s : String) (t' : FDSNamelist)
    (htf : toFds t = .ok (s, t')) : t' = t :=
  classify_clean_aux.2 t hclean s t' htf

/-- C1 (amended): serialization is deterministic and pure for namelists
whose entries — params, nested namelists, flatten- and multi-groups,
recursively — carry no messages: the call returns the namelist unchanged
(no mutation, in particular of the message list), so serializing twice
yields byte-identical text.  (With entry messages present the claim
fails: `self.msgs.extend(p.msgs)` mutates the namelist and the second
call emits the comment lines twice — see
`c1_determinism_counterexample`.) -/
theorem c1_serialization_pure (t : FDSNamelist) (s : String) (t' : FDSNamelist)
    (hclean : cleanEntries t.fds_params = true) (htf : toFds t = .ok (s, t')) :
    t' = t ∧ toFds t' = toFds t := by
  have h := toFds_clean_id t hclean s t' htf
  exact ⟨h, by rw [h]⟩

/-- Witness for `c1_serialization_pure` at a concrete input. -/
theorem c1_serialization_pure_witness :
    (cleanEntries (FDSNamelist.mk "OBST"
        [.paramE ⟨"ID", ["'W'"], []⟩] ["made by hand"]).fds_params = true) ∧
    ((FDSNamelist.mk "OBST" [.paramE ⟨"ID", ["'W'"], []⟩] ["made by hand"]) =
        FDSNamelist.mk "OBST" [.paramE ⟨"ID", ["'W'"], []⟩] ["made by hand"] ∧
      toFds (FDSNamelist.mk "OBST" [.paramE ⟨"ID", ["'W'"], []⟩] ["made by hand"]) =
        toFds (FDSNamelist.mk "OBST" [.paramE ⟨"ID", ["'W'"], []⟩] ["made by hand"])) :=
  ⟨by rfl,
   c1_serialization_pure
     (FDSNamelist.mk "OBST" [.paramE ⟨"ID", ["'W'"], []⟩] ["made by hand"])
     "! made by hand\n&OBST ID='W' /"
     (FDSNamelist.mk "OBST" [.paramE ⟨"ID", ["'W'"], []⟩] ["made by hand"])
     (by rfl) (by rfl)⟩

/-- C1 is refuted as stated: with a param carrying a message, the first
`to_fds` call extends `self.msgs` (mutation), and a second call on the
same — unmodified by the caller — namelist object emits the comment line
twice, so the two texts differ. -/
theorem c1_determinism_counterexample :
    (toFds (.mk "X" [.paramE ⟨"A", ["1"], ["note"]⟩] [])).map Prod.fst =
      .ok "! note\n&X A=1 /" ∧
    (toFds (.mk "X" [.paramE ⟨"A", ["1"], ["note"]⟩] [])).map (fun r => r.2) =
      .ok (.mk "X" [.paramE ⟨"A", ["1"], ["note"]⟩] ["note"]) ∧
    (toFds (.mk "X" [.paramE ⟨"A", ["1"], ["note"]⟩] ["note"])).map Prod.fst =
      .ok "! note\n! note\n&X A=1 /" ∧
    ("! note\n&X A=1 /" : String) ≠ "! note\n! note\n&X A=1 /" ∧
    (FDSNamelist.mk "X" [.paramE ⟨"A", ["1"], ["note"]⟩] ["note"]) ≠
      .mk "X" [.paramE ⟨"A", ["1"], ["note"]⟩] [] := by
  refine ⟨by rfl, by rfl, by rfl, by decide, ?_⟩
  intro h
  injection h with h1 h2 h3
  exact absurd h3 (by decide)

/-! ### C9: the lenient tokenizing parse -/

/-- The param loop preserves labels and order and creates no messages. -/
theorem parseParams_labels :
    ∀ (l : List (String × String)) (ps : List FDSParam),
      parseParams l = .ok ps →
      ps.map (fun p => p.fds_label) = l.map Prod.fst ∧ ∀ p ∈ ps, p.msgs = [] := by
  intro l
  induction l with
  | nil =>
    intro ps h
    unfold parseParams at h
    simp only [Except.ok.injEq] at h
    subst h
    simp
  | cons lv rest ih =>
    intro ps h
    unfold parseParams at h
    cases hp : paramFromFds lv.1 lv.2 with
    | error e => rw [hp] at h; cases h
    | ok p =>
      rw [hp] at h
      cases hr : parseParams rest with
      | error e => rw [hr] at h; cases h
      | ok ps' =>
        rw [hr] at h
        simp only [Except.ok.injEq] at h
        subst h
        have hlab : p.fds_label = lv.1 ∧ p.msgs = [] := by
          unfold paramFromFds at hp
          cases hs : splitTopCommas (lv.2.data.length + 1) lv.2.data [] with
          | error e => rw [hs] at hp; cases hp
          | ok fs =>
            rw [hs] at hp
            simp only [Except.ok.injEq] at hp
            subst hp
            exact ⟨rfl, rfl⟩
        have := ih ps' hr
        refine ⟨?_, ?_⟩
        · simp only [List.map_cons, hlab.1, this.1]
        · intro q hq
          rcases List.mem_cons.mp hq with h | h
          · subst h; exact hlab.2
          · exact this.2 q h

/-- If `[,\s\t]*=` matches at `rem`, then `rem` holds an `=`. -/
theorem eqFollows_has_eq {rem : List Char} (h : eqFollows rem = true) : '=' ∈ rem := by
  unfold eqFollows at h
  have hh : (rem.dropWhile sepChar).head? = some '=' := by
    simpa using h
  have : '=' ∈ rem.dropWhile sepChar := by
    cases hd : rem.dropWhile sepChar with
    | nil => rw [hd] at hh; cases hh
    | cons a b =>
      rw [hd] at hh
      simp only [List.head?] at hh
      injection hh with h2
      subst h2
      simp
  exact (List.dropWhile_sublist _).subset this

/-- An `=`-free text admits no label match. -/
theorem labelLenAux_none {rem : List Char} (hno : '=' ∉ rem) :
    ∀ ℓ, labelLenAux rem ℓ = none := by
  induction rem with
  | nil =>
    intro ℓ
    unfold labelLenAux
    have : eqFollows [] = false := rfl
    simp [this]
  | cons c r ih =>
    intro ℓ
    unfold labelLenAux
    have he : eqFollows (c :: r) = false := by
      cases hx : eqFollows (c :: r) with
      | false => rfl
      | true => exact absurd (eqFollows_has_eq hx) hno
    rw [he]
    simp only [Bool.false_eq_true, if_false]
    have hno' : '=' ∉ r := fun h => hno (List.mem_cons_of_mem _ h)
    split
    · exact ih hno' _
    · rfl

theorem findLabelLen_none {cs : List Char} (hno : '=' ∉ cs) :
    findLabelLen cs = none := by
  cases cs with
  | nil => rfl
  | cons c r =>
    have hno' : '=' ∉ r := fun h => hno (List.mem_cons_of_mem _ h)
    show (if c.isAlpha then labelLenAux r 1 else none) = none
    split
    · exact labelLenAux_none hno' 1
    · rfl

/-- The scan of an `=`-free text yields no match. -/
theorem scanLoop_no_eq :
    ∀ (fuel : Nat) (cs : List Char), '=' ∉ cs → scanLoop fuel cs = [] := by
  intro fuel
  induction fuel with
  | zero => intro cs _; rfl
  | succ fuel ih =>
    intro cs hno
    unfold scanLoop
    cases cs with
    | nil => rfl
    | cons c tail =>
      have hma : matchAt (c :: tail) = none := by
        unfold matchAt
        rw [findLabelLen_none hno]
      rw [hma]
      exact ih tail (fun h => hno (List.mem_cons_of_mem _ h))

/-- Characters of `pyStrip s` come from `s`. -/
theorem pyStrip_subset {s : String} {c : Char} (h : c ∈ (pyStrip s).data) :
    c ∈ s.data := by
  unfold pyStrip at h
  simp only [data_mk] at h
  rw [List.mem_reverse] at h
  have h1 := (List.dropWhile_sublist _).subset h
  rw [List.mem_reverse] at h1
  exact (List.dropWhile_sublist _).subset h1

/-- Characters of the split lines come from the input (or the
accumulator). -/
theorem splitLinesAux_subset :
    ∀ (cs acc : List Char), ∀ l ∈ splitLinesAux cs acc, ∀ c ∈ l, c ∈ cs ∨ c ∈ acc := by
  intro cs acc
  induction cs, acc using splitLinesAux.induct with
  | case1 acc hacc =>
    intro l hl c hc
    rw [show splitLinesAux [] acc = if acc.isEmpty then [] else [acc.reverse] from rfl,
      if_pos hacc] at hl
    cases hl
  | case2 acc hacc =>
    intro l hl c hc
    rw [show splitLinesAux [] acc = if acc.isEmpty then [] else [acc.reverse] from rfl,
      if_neg hacc] at hl
    simp at hl
    subst hl
    exact .inr (List.mem_reverse.mp hc)
  | case3 ch acc hcc ih =>
    intro l hl c hc
    rw [show splitLinesAux [ch] acc =
        (if ch = '\n' ∨ ch = '\x0d' then acc.reverse :: splitLinesAux [] []
         else splitLinesAux [] (ch :: acc)) from rfl, if_pos hcc] at hl
    rcases List.mem_cons.mp hl with h | h
    · subst h
      exact .inr (List.mem_reverse.mp hc)
    · rcases ih l h c hc with h2 | h2 <;> cases h2
  | case4 ch acc hcc ih =>
    intro l hl c hc
    rw [show splitLinesAux [ch] acc =
        (if ch = '\n' ∨ ch = '\x0d' then acc.reverse :: splitLinesAux [] []
         else splitLinesAux [] (ch :: acc)) from rfl, if_neg hcc] at hl
    rcases ih l hl c hc with h2 | h2
    · cases h2
    · rcases List.mem_cons.mp h2 with h3 | h3
      · exact .inl (by simp [h3])
      · exact .inr h3
  | case5 r0 r2 acc ih =>
    intro l hl c hc
    rw [show splitLinesAux ('\n' :: r0 :: r2) acc =
        acc.reverse :: splitLinesAux (r0 :: r2) [] from rfl] at hl
    rcases List.mem_cons.mp hl with h | h
    · subst h
      exact .inr (List.mem_reverse.mp hc)
    · rcases ih l h c hc with h2 | h2
      · exact .inl (List.mem_cons_of_mem _ h2)
      · cases h2
  | case6 r2 acc hne ih =>
    intro l hl c hc
    rw [show splitLinesAux ('\x0d' :: '\n' :: r2) acc =
        acc.reverse :: splitLinesAux r2 [] from rfl] at hl
    rcases List.mem_cons.mp hl with h | h
    · subst h
      exact .inr (List.mem_reverse.mp hc)
    · rcases ih l h c hc with h2 | h2
      · exact .inl (List.mem_cons_of_mem _ (List.mem_cons_of_mem _ h2))
      · cases h2
  | case7 r0 r2 acc hr0 hne ih =>
    intro l hl c hc
    rw [show splitLinesAux ('\x0d' :: r0 :: r2) acc =
        (if r0 = '\n' then acc.reverse :: splitLinesAux r2 []
         else acc.reverse :: splitLinesAux (r0 :: r2) []) from rfl,
      if_neg hr0] at hl
    rcases List.mem_cons.mp hl with h | h
    · subst h
      exact .inr (List.mem_reverse.mp hc)
    · rcases ih l h c hc with h2 | h2
      · exact .inl (List.mem_cons_of_mem _ h2)
      · cases h2
  | case8 ch r0 r2 acc h1 h2 ih =>
    intro l hl c hc
    rw [show splitLinesAux (ch :: r0 :: r2) acc =
        (if ch = '\n' then acc.reverse :: splitLinesAux (r0 :: r2) []
         else if ch = '\x0d' then
           (if r0 = '\n' then acc.reverse :: splitLinesAux r2 []
            else acc.reverse :: splitLinesAux (r0 :: r2) [])
         else splitLinesAux (r0 :: r2) (ch :: acc)) from rfl,
      if_neg h1, if_neg h2] at hl
    rcases ih l hl c hc with hh | hh
    · exact .inl (List.mem_cons_of_mem _ hh)
    · rcases List.mem_cons.mp hh with h3 | h3
      · exact .inl (by simp [h3])
      · exact .inr h3

theorem intercalate_go_mem :
    ∀ (as : List String) (acc sep : String) (c : Char),
      c ∈ (String.intercalate.go acc sep as).data →
      c ∈ acc.data ∨ c ∈ sep.data ∨ ∃ l ∈ as, c ∈ l.data := by
  intro as
  induction as with
  | nil =>
    intro acc sep c h
    exact .inl h
  | cons a as ih =>
    intro acc sep c h
    have := ih (acc ++ sep ++ a) sep c h
    rcases this with h2 | h2 | ⟨l, hl, hcl⟩
    · simp only [String.data_append] at h2
      rcases List.mem_append.mp h2 with h3 | h3
      · rcases List.mem_append.mp h3 with h4 | h4
        · exact .inl h4
        · exact .inr (.inl h4)
      · exact .inr (.inr ⟨a, by simp, h3⟩)
    · exact .inr (.inl h2)
    · exact .inr (.inr ⟨l, List.mem_cons_of_mem _ hl, hcl⟩)

/-- Characters of a space-join come from the joined strings or are
spaces. -/
theorem intercalate_space_mem {ls : List String} {c : Char}
    (h : c ∈ (String.intercalate " " ls).data) :
    c = ' ' ∨ ∃ l ∈ ls, c ∈ l.data := by
  cases ls with
  | nil => simp [String.intercalate] at h
  | cons a as =>
    have : c ∈ (String.intercalate.go a " " as).data := h
    rcases intercalate_go_mem as a " " c this with h2 | h2 | ⟨l, hl, hcl⟩
    · exact .inr ⟨a, by simp, h2⟩
    · left
      have : (" " : String).data = [' '] := rfl
      rw [this] at h2
      simpa using h2
    · exact .inr ⟨l, List.mem_cons_of_mem _ hl, hcl⟩

/-- The scanning normalization introduces no `=` sign. -/
theorem normJoin_no_eq {f90 : String} (h : '=' ∉ f90.data) :
    '=' ∉ (normJoin f90).data := by
  intro hmem
  unfold normJoin at hmem
  rcases intercalate_space_mem hmem with h2 | ⟨l, hl, hcl⟩
  · cases h2
  · unfold splitLines at hl
    obtain ⟨lc, hlc, rfl⟩ := List.mem_map.mp hl
    have := splitLinesAux_subset (pyStrip f90).data [] lc hlc _
      (by simpa using hcl)
    rcases this with h3 | h3
    · exact h (pyStrip_subset h3)
    · cases h3

theorem labelLenAux_ge {rem : List Char} :
    ∀ {k ℓ : Nat}, labelLenAux rem k = some ℓ → k ≤ ℓ := by
  induction rem with
  | nil =>
    intro k ℓ h
    rw [show labelLenAux [] k = none from rfl] at h
    cases h
  | cons c r ih =>
    intro k ℓ h
    have hdef : labelLenAux (c :: r) k =
        if eqFollows (c :: r) = true then some k
        else if labelChar c = true then labelLenAux r (k + 1) else none := rfl
    rw [hdef] at h
    by_cases he : eqFollows (c :: r) = true
    · rw [if_pos he] at h
      simp at h
      omega
    · rw [if_neg he] at h
      by_cases hlc : labelChar c = true
      · rw [if_pos hlc] at h
        have := ih h
        omega
      · rw [if_neg hlc] at h
        cases h

theorem matchAt_label_alpha {cs : List Char} {lab v : String} {rest : List Char}
    (h : matchAt cs = some (lab, v, rest)) :
    ∃ c cs2, lab.data = c :: cs2 ∧ c.isAlpha = true := by
  unfold matchAt at h
  cases hf : findLabelLen cs with
  | none => rw [hf] at h; cases h
  | some ℓ =>
    rw [hf] at h
    have hstruct : ∃ c r, cs = c :: r ∧ c.isAlpha = true ∧ 1 ≤ ℓ := by
      cases cs with
      | nil => rw [show findLabelLen ([] : List Char) = none from rfl] at hf; cases hf
      | cons c r =>
        have hdef : findLabelLen (c :: r) =
            if c.isAlpha = true then labelLenAux r 1 else none := rfl
        rw [hdef] at hf
        by_cases ha : c.isAlpha = true
        · rw [if_pos ha] at hf
          exact ⟨c, r, rfl, ha, labelLenAux_ge hf⟩
        · rw [if_neg ha] at hf
          cases hf
    obtain ⟨c, r, rfl, halpha, hge⟩ := hstruct
    dsimp only at h
    split at h
    · rename_i r2 heq
      have hlab : lab = String.mk ((c :: r).take ℓ) := by
        simp only [Option.some.injEq, Prod.mk.injEq] at h
        exact h.1.symm
      cases ℓ with
      | zero => omega
      | succ n =>
        refine ⟨c, r.take n, ?_, halpha⟩
        rw [hlab]
        rfl
    · cases h

/-- Every label yielded by the scan satisfies the label grammar. -/
theorem scanLoop_label_alpha :
    ∀ (fuel : Nat) (cs : List Char) (lv : String × String),
      lv ∈ scanLoop fuel cs → ∃ c cs2, lv.1.data = c :: cs2 ∧ c.isAlpha = true := by
  intro fuel
  induction fuel with
  | zero => intro cs lv h; cases h
  | succ fuel ih =>
    intro cs lv h
    unfold scanLoop at h
    cases cs with
    | nil => cases h
    | cons c0 tail =>
      cases hma : matchAt (c0 :: tail) with
      | none => rw [hma] at h; exact ih tail lv h
      | some m =>
        rw [hma] at h
        obtain ⟨lab, v, rest⟩ := m
        rcases List.mem_cons.mp h with h2 | h2
        · subst h2
          exact matchAt_label_alpha hma
        · exact ih rest lv h2

/-- C9: the tokenizing parse is lenient and structural: (i) on success,
`from_fds` appends exactly one `Param` per scanner match, in encountered
order, with the matched label as its label and no messages, the scanner
running on the whitespace-joined input; (ii) an input with no `=` sign
anywhere yields no match at all — the whole text is silently skipped, the
tokenizer raises nothing, and the namelist is returned with its params
unchanged; (iii) every label the scanner yields satisfies the label
grammar (non-empty, starting with a letter). -/
theorem c9_lenient_tokenizing :
    (∀ (t : FDSNamelist) (f90 : String) (t' : FDSNamelist),
      t.fromFds f90 = .ok t' → ∃ ps, fromFdsList f90 = .ok ps ∧
        t' = .mk t.fds_label (t.fds_params ++ ps.map .paramE) t.msgs ∧
        ps.map (fun p => p.fds_label) = (scanParams (normJoin f90)).map Prod.fst ∧
        ∀ p ∈ ps, p.msgs = []) ∧
    (∀ f90 : String, (∀ c ∈ f90.data, c ≠ '=') →
      fromFdsList f90 = .ok [] ∧ ∀ t : FDSNamelist, t.fromFds f90 = .ok t) ∧
    (∀ (f90 : String) (lv : String × String), lv ∈ scanParams (normJoin f90) →
      ∃ c cs2, lv.1.data = c :: cs2 ∧ c.isAlpha = true) := by
  refine ⟨?_, ?_, ?_⟩
  · intro t f90 t' h
    unfold FDSNamelist.fromFds at h
    cases hfl : fromFdsList f90 with
    | error e => rw [hfl] at h; cases h
    | ok ps =>
      rw [hfl] at h
      simp only [Except.ok.injEq] at h
      have hlabels := parseParams_labels (scanParams (normJoin f90)) ps hfl
      exact ⟨ps, rfl, h.symm, hlabels.1, hlabels.2⟩
  · intro f90 hno
    have hne : '=' ∉ f90.data := fun hmem => hno '=' hmem rfl
    have hscan : scanParams (normJoin f90) = [] := by
      unfold scanParams
      exact scanLoop_no_eq _ _ (normJoin_no_eq hne)
    have hfl : fromFdsList f90 = .ok [] := by
      unfold fromFdsList
      rw [hscan]
      rfl
    refine ⟨hfl, ?_⟩
    intro t
    unfold FDSNamelist.fromFds
    rw [hfl]
    cases t with
    | mk l ps m => simp [FDSNamelist.fds_label, FDSNamelist.fds_params, FDSNamelist.msgs]
  · intro f90 lv h
    exact scanLoop_label_alpha _ _ lv h

/-- Witness for `c9_lenient_tokenizing` at concrete inputs. -/
theorem c9_lenient_tokenizing_witness :
    ((FDSNamelist.mk "X" [] []).fromFds "ID='A' N=1,2" =
      .ok (.mk "X" [.paramE ⟨"ID", ["'A'"], []⟩, .paramE ⟨"N", ["1", "2"], []⟩] []) ∧
     (∃ ps, fromFdsList "ID='A' N=1,2" = .ok ps ∧
        (FDSNamelist.mk "X" [.paramE ⟨"ID", ["'A'"], []⟩,
          .paramE ⟨"N", ["1", "2"], []⟩] []) =
          .mk (FDSNamelist.mk "X" [] []).fds_label
            ((FDSNamelist.mk "X" [] []).fds_params ++ ps.map .paramE)
            (FDSNamelist.mk "X" [] []).msgs ∧
        ps.map (fun p => p.fds_label) =
          (scanParams (normJoin "ID='A' N=1,2")).map Prod.fst ∧
        ∀ p ∈ ps, p.msgs = [])) ∧
    ((∀ c ∈ ("no equals sign here" : String).data, c ≠ '=') ∧
      fromFdsList "no equals sign here" = .ok [] ∧
      ∀ t : FDSNamelist, t.fromFds "no equals sign here" = .ok t) := by
  refine ⟨⟨by rfl, ?_⟩, ⟨by decide, ?_⟩⟩
  · exact c9_lenient_tokenizing.1 (FDSNamelist.mk "X" [] []) "ID='A' N=1,2"
      (.mk "X" [.paramE ⟨"ID", ["'A'"], []⟩, .paramE ⟨"N", ["1", "2"], []⟩] [])
      (by rfl)
  · exact c9_lenient_tokenizing.2.1 "no equals sign here" (by decide)

end BlenderFDS
